import Mathlib

/-!
# Verification of the Avro C++ schema-compiler core

This development embeds the repository's error accumulator
(`lang/c++/api/ErrorState.hh`) directly, and models the schema compiler,
validator and canonical serializer — whose sources are not part of the
repository snapshot, only their tests (`lang/c++/test/SchemaTests.cc`) —
from the written specification.

The embedding is shallow: `std::queue<std::string>` becomes `List String`
(head = front of the queue), output streams become the `String` that would
have been written to them, and the JSON documents of the tests are carried
as Lean string literals.
-/

set_option maxRecDepth 10000

namespace Avro

/-! ## The error accumulator (`error_state`, from `ErrorState.hh`) -/

/-- `struct error_state`: a queue of messages plus a flag.  The queue's front
is the list head; `push` appends at the back. -/
structure ErrorState where
  error_state_messages : List String
  has_errored : Bool
deriving Repr, DecidableEq

/-- `recordError(msg)`: sets the flag, pushes the message at the back. -/
def recordError (s : ErrorState) (msg : String) : ErrorState :=
  { error_state_messages := s.error_state_messages ++ [msg], has_errored := true }

/-- The `while` loop body of `throwError(std::ostream&)`: pops every message
off the queue, writing each one followed by `"\n"` to the stream.  `out` is
the text written so far. -/
def throwErrorLoop : List String → String → String
  | [], out => out
  | m :: rest, out => throwErrorLoop rest (out ++ m ++ "\n")

/-- `throwError(std::ostream& output)`: drains the queue into the stream and
clears the flag.  Returns the text written together with the new state. -/
def drain (s : ErrorState) : String × ErrorState :=
  (throwErrorLoop s.error_state_messages "",
   { error_state_messages := [], has_errored := false })

/-- `emptyState()`: drains into a null stream (the written text is discarded). -/
def emptyState (s : ErrorState) : ErrorState :=
  (drain s).2

/-- The zero-initialized state of the global `avro_error_state`. -/
def initErrorState : ErrorState :=
  { error_state_messages := [], has_errored := false }

/-- One client call on an `error_state`: `recordError`, `throwError` with an
output stream, or `emptyState`. -/
inductive ErrOp where
  | record (msg : String)
  | throwOut
  | empty
deriving Repr, DecidableEq

/-- Apply one call to a state (the text written by `throwError` is dropped;
only the state evolution matters here). -/
def applyErrOp (s : ErrorState) : ErrOp → ErrorState
  | .record m => recordError s m
  | .throwOut => (drain s).2
  | .empty => emptyState s

/-- Run a finite sequence of calls from a starting state. -/
def runErrOps (s : ErrorState) (ops : List ErrOp) : ErrorState :=
  ops.foldl applyErrOp s

end Avro

namespace Avro

/-! ## JSON value trees

Modelled from the spec: the repository's JSON tokenizer/parser and value
tree (spec §2, §9) are not among the source files; only the schema tests
exercise them.  Numbers keep the literal's text (the compiler interprets it
on demand), objects keep key order. -/

/-- A JSON value.  `jnum` carries the literal text of the number (for
example `"314"` or `"1.2"`). -/
inductive Json where
  | jnull
  | jbool (b : Bool)
  | jnum (raw : String)
  | jstr (s : String)
  | jarr (elems : List Json)
  | jobj (members : List (String × Json))
deriving Inhabited

/-- Insignificant-whitespace characters (RFC 8259). -/
def isWsC (c : Char) : Bool :=
  c = ' ' || c = '\n' || c = '\t' || c = '\r'

/-- Drop leading whitespace. -/
def skipWsC : List Char → List Char
  | [] => []
  | c :: cs => if isWsC c then skipWsC cs else c :: cs

def isDigitC (c : Char) : Bool := '0' ≤ c && c ≤ '9'

/-- Characters that may continue a numeric literal. -/
def isNumC (c : Char) : Bool :=
  isDigitC c || c = '-' || c = '+' || c = '.' || c = 'e' || c = 'E'

/-- Longest run of number characters at the head of the input. -/
def takeNum : List Char → List Char × List Char
  | [] => ([], [])
  | c :: cs =>
      if isNumC c then
        let p := takeNum cs
        (c :: p.1, p.2)
      else ([], c :: cs)

/-- The numeric value of one hexadecimal digit. -/
def hexDigitVal (c : Char) : Option Nat :=
  let v := c.toNat
  if 48 ≤ v && v ≤ 57 then some (v - 48)
  else if 97 ≤ v && v ≤ 102 then some (v - 87)
  else if 65 ≤ v && v ≤ 70 then some (v - 55)
  else none

/-- The code point denoted by a `\uXXXX` escape's four hex digits. -/
def hexQuad (a b c d : Char) : Option Nat := do
  let va ← hexDigitVal a
  let vb ← hexDigitVal b
  let vc ← hexDigitVal c
  let vd ← hexDigitVal d
  pure (va * 4096 + vb * 256 + vc * 16 + vd)

/-- The character named by a short escape (`\n`, `\t`, …). -/
def shortUnescape (e : Char) : Option Char :=
  if e = 'n' then some '\n'
  else if e = 't' then some '\t'
  else if e = 'r' then some '\r'
  else if e = 'b' then some (Char.ofNat 8)
  else if e = 'f' then some (Char.ofNat 12)
  else if e = '"' || e = '\\' || e = '/' then some e
  else none

/-- Scan the body of a string literal (after the opening quote) up to the
closing quote, decoding escapes.  A raw character below 0x20 is accepted
as-is (the reference tests feed raw control characters to the compiler). -/
def scanString (acc : List Char) : List Char → Option (String × List Char)
  | '"' :: rest => some (String.mk acc.reverse, rest)
  | '\\' :: 'u' :: a :: b :: c :: d :: rest =>
      match hexQuad a b c d with
      | some n => scanString (Char.ofNat n :: acc) rest
      | none => none
  | '\\' :: e :: rest =>
      match shortUnescape e with
      | some ch => scanString (ch :: acc) rest
      | none => none
  | '\\' :: [] => none
  | c :: rest => scanString (c :: acc) rest
  | [] => none

/-- The decoded content of a string-literal body: what the parser stores for
a literal whose characters (between the quotes) are `cs`. -/
def decodeStringLit (cs : List Char) : Option String :=
  Option.map Prod.fst (scanString [] (cs ++ ['"']))

mutual

/-- Parse one JSON value; `fuel` bounds the recursion and is in practice the
input length plus one. -/
def parseVal : Nat → List Char → Option (Json × List Char)
  | 0, _ => none
  | fuel + 1, cs =>
      match skipWsC cs with
      | 'n' :: 'u' :: 'l' :: 'l' :: r => some (.jnull, r)
      | 't' :: 'r' :: 'u' :: 'e' :: r => some (.jbool true, r)
      | 'f' :: 'a' :: 'l' :: 's' :: 'e' :: r => some (.jbool false, r)
      | '"' :: r =>
          match scanString [] r with
          | some (s, r') => some (.jstr s, r')
          | none => none
      | '[' :: r =>
          match skipWsC r with
          | ']' :: r' => some (.jarr [], r')
          | r1 =>
              match parseElems fuel r1 with
              | some (es, r'') => some (.jarr es, r'')
              | none => none
      | '{' :: r =>
          match skipWsC r with
          | '}' :: r' => some (.jobj [], r')
          | r1 =>
              match parseMembers fuel r1 with
              | some (ms, r'') => some (.jobj ms, r'')
              | none => none
      | c :: r =>
          if isDigitC c || c = '-' then
            let p := takeNum (c :: r)
            some (.jnum (String.mk p.1), p.2)
          else none
      | [] => none

/-- Parse one or more comma-separated array elements up to the closing `]`. -/
def parseElems : Nat → List Char → Option (List Json × List Char)
  | 0, _ => none
  | fuel + 1, cs =>
      match parseVal fuel cs with
      | none => none
      | some (v, r) =>
          match skipWsC r with
          | ',' :: r' =>
              match parseElems fuel r' with
              | some (vs, r'') => some (v :: vs, r'')
              | none => none
          | ']' :: r' => some ([v], r')
          | _ => none

/-- Parse one or more `"key": value` members up to the closing `}`. -/
def parseMembers : Nat → List Char → Option (List (String × Json) × List Char)
  | 0, _ => none
  | fuel + 1, cs =>
      match cs with
      | '"' :: r =>
          match scanString [] r with
          | none => none
          | some (k, r1) =>
              match skipWsC r1 with
              | ':' :: r2 =>
                  match parseVal fuel r2 with
                  | none => none
                  | some (v, r3) =>
                      match skipWsC r3 with
                      | ',' :: r4 =>
                          match parseMembers fuel (skipWsC r4) with
                          | some (ms, r5) => some ((k, v) :: ms, r5)
                          | none => none
                      | '}' :: r4 => some ([(k, v)], r4)
                      | _ => none
              | _ => none
      | _ => none

end

/-- All characters are insignificant whitespace. -/
def wsOnly (l : List Char) : Bool := l.all isWsC

/-- The input cannot extend a numeric literal (empty, or headed by a
non-number character): where `takeNum` stops. -/
def numStop : List Char → Bool
  | [] => true
  | c :: _ => !isNumC c

/-- Parse a complete JSON document. -/
def parseText (s : String) : Option Json :=
  match parseVal (s.toList.length + 1) s.toList with
  | some (j, r) => if (skipWsC r).isEmpty then some j else none
  | none => none

/-! ## Canonical rendering (spec §4.4, §6) -/

/-- Lower-case hex digit for `n < 16`. -/
def hexDigitChar (n : Nat) : Char :=
  if n < 10 then Char.ofNat ('0'.toNat + n) else Char.ofNat ('a'.toNat + n - 10)

/-- Canonical escaping of one character (spec §6): `"` and `\` get their
two-character escapes, control characters get a standard short escape when
one exists and `\u00XX` otherwise, everything else is emitted literally. -/
def escapeChar (c : Char) : List Char :=
  if c = '"' then ['\\', '"']
  else if c = '\\' then ['\\', '\\']
  else if c = '\n' then ['\\', 'n']
  else if c = '\t' then ['\\', 't']
  else if c = '\r' then ['\\', 'r']
  else if c = Char.ofNat 8 then ['\\', 'b']
  else if c = Char.ofNat 12 then ['\\', 'f']
  else if c.toNat < 0x20 then
    let lo := hexDigitChar (c.toNat % 16)
    '\\' :: 'u' :: '0' :: '0' :: hexDigitChar (c.toNat / 16) :: [lo]
  else [c]

/-- Escape a whole character sequence. -/
def escapeList : List Char → List Char
  | [] => []
  | c :: cs => escapeChar c ++ escapeList cs

/-- A rendered string literal, quotes included. -/
def renderStr (s : String) : List Char :=
  '"' :: (escapeList s.toList ++ ['"'])

/-- The canonically escaped text of a string value (what the serializer
emits between the quotes). -/
def escapeString (s : String) : String :=
  String.mk (escapeList s.toList)

/-- Pretty-mode line break plus indentation; nothing in compact mode. -/
def nlInd (p : Bool) (n : Nat) : List Char :=
  if p then '\n' :: List.replicate n ' ' else []

/-- Pretty-mode single space (after `:`); nothing in compact mode. -/
def spIf (p : Bool) : List Char :=
  if p then [' '] else []

mutual

/-- The body opener of a nonempty array/object in pretty mode: a line break
plus indentation; nothing in compact mode or for an empty body. -/
def openNE (p : Bool) (ind : Nat) (isEmpty : Bool) : List Char :=
  if isEmpty then [] else nlInd p ind

/-- The separator after a non-final element: a comma, plus a line break and
indentation in pretty mode; nothing after the final element. -/
def sepNE (p : Bool) (ind : Nat) (isLast : Bool) : List Char :=
  if isLast then [] else ',' :: nlInd p ind

/-- Render a JSON value: compact (`p = false`, no insignificant whitespace)
or pretty (`p = true`, one member per line, four-space indentation). -/
def renderJ (p : Bool) (ind : Nat) : Json → List Char
  | .jnull => ['n', 'u', 'l', 'l']
  | .jbool true => ['t', 'r', 'u', 'e']
  | .jbool false => ['f', 'a', 'l', 's', 'e']
  | .jnum raw => raw.toList
  | .jstr s => renderStr s
  | .jarr es =>
      '[' :: (openNE p (ind + 4) es.isEmpty ++ renderElemsJ p (ind + 4) es ++
              openNE p ind es.isEmpty ++ [']'])
  | .jobj ms =>
      '{' :: (openNE p (ind + 4) ms.isEmpty ++ renderMembersJ p (ind + 4) ms ++
              openNE p ind ms.isEmpty ++ ['}'])
termination_by structural j => j

/-- Render an element list, comma-separated. -/
def renderElemsJ (p : Bool) (ind : Nat) : List Json → List Char
  | [] => []
  | e :: es => renderJ p ind e ++ sepNE p ind es.isEmpty ++ renderElemsJ p ind es
termination_by structural es => es

/-- Render a member list, comma-separated. -/
def renderMembersJ (p : Bool) (ind : Nat) : List (String × Json) → List Char
  | [] => []
  | (k, v) :: ms =>
      renderStr k ++ ':' :: (spIf p ++ renderJ p ind v) ++ sepNE p ind ms.isEmpty ++
        renderMembersJ p ind ms
termination_by structural ms => ms

end

/-- Render a complete document as a string. -/
def renderText (p : Bool) (j : Json) : String :=
  String.mk (renderJ p 0 j)

/-! ## The schema type graph (spec §3)

Modelled from the spec: the type-graph builder, validator and canonical
serializer (`Compiler.cc` / `ValidSchema`) are not among the source files;
only `SchemaTests.cc` exercises them.  A named-type reference is kept as a
lookup key (`ref`), so cyclic graphs are representable. -/

/-- The eight primitive kinds. -/
inductive PrimKind where
  | nullK | boolK | intK | longK | floatK | doubleK | bytesK | stringK
deriving DecidableEq, Repr

def primName : PrimKind → String
  | .nullK => "null"
  | .boolK => "boolean"
  | .intK => "int"
  | .longK => "long"
  | .floatK => "float"
  | .doubleK => "double"
  | .bytesK => "bytes"
  | .stringK => "string"

/-- The primitive kind named by a string, if any. -/
def primOfName (s : String) : Option PrimKind :=
  if s = "null" then some .nullK
  else if s = "boolean" then some .boolK
  else if s = "int" then some .intK
  else if s = "long" then some .longK
  else if s = "float" then some .floatK
  else if s = "double" then some .doubleK
  else if s = "bytes" then some .bytesK
  else if s = "string" then some .stringK
  else none

mutual

/-- A schema node.  Named types keep the `name` and `namespace` attributes
as written; `ref` is a reference to a named type by the fully qualified
name under which it was declared. -/
inductive SchemaNode where
  | prim (k : PrimKind)
  | ref (qualified : String)
  | record (name : String) (ns : Option String) (doc : Option String)
      (fields : List SchemaField)
  | enumN (name : String) (ns : Option String) (doc : Option String)
      (symbols : List String)
  | arrayN (items : SchemaNode)
  | mapN (values : SchemaNode)
  | unionN (branches : List SchemaNode)
  | fixedN (name : String) (ns : Option String) (doc : Option String) (size : Nat)

/-- One record field: name, optional doc, type, optional default literal. -/
inductive SchemaField where
  | mk (name : String) (doc : Option String) (ty : SchemaNode) (dflt : Option Json)

end

instance : Inhabited SchemaNode := ⟨.prim .nullK⟩

def SchemaField.fname : SchemaField → String
  | .mk n _ _ _ => n

/-- What kind of named type a symbol-table entry is. -/
inductive NamedKind where
  | recordK | enumK | fixedK
deriving DecidableEq, Repr

/-- The symbol table: fully qualified name to named kind, most recent first. -/
abbrev SymTab := List (String × NamedKind)

def lookupSym (st : SymTab) (q : String) : Option NamedKind :=
  match st with
  | [] => none
  | (n, k) :: rest => if n = q then some k else lookupSym rest q

/-- First value bound to key `k` in an object's member list. -/
def lookupJ (k : String) : List (String × Json) → Option Json
  | [] => none
  | (k', v) :: ms => if k' = k then some v else lookupJ k ms

/-- `namespace.name`, or just `name` at the root namespace (spec §4.3). -/
def qualifyName (ns : String) (name : String) : String :=
  if ns = "" then name else ns ++ "." ++ name

/-- The namespace in force for a named type: its own `namespace` attribute
if present, otherwise the enclosing context's. -/
def effectiveNs (attr : Option String) (ctx : String) : String :=
  attr.getD ctx

/-- The value of a run of decimal digits. -/
def digitsVal (cs : List Char) : Nat :=
  cs.foldl (fun acc c => acc * 10 + (c.toNat - '0'.toNat)) 0

/-- Interpret a numeric literal's text as an integer (no `.`/exponent). -/
def parseIntRaw (s : String) : Option Int :=
  match s.toList with
  | [] => none
  | '-' :: ds =>
      if !ds.isEmpty && ds.all isDigitC then some (-(digitsVal ds : Int)) else none
  | ds => if ds.all isDigitC then some ((digitsVal ds : Nat) : Int) else none

/-- The union-compatibility key (spec §3): primitives collide by kind, named
types by qualified name, and at most one array and one map branch; a union
directly inside a union has no key (it is rejected outright). -/
inductive UnionKey where
  | primU (k : PrimKind)
  | namedU (q : String)
  | arrayU
  | mapU
deriving DecidableEq, Repr

def unionKeyOf (ctx : String) : SchemaNode → Option UnionKey
  | .prim k => some (.primU k)
  | .ref q => some (.namedU q)
  | .record n ns _ _ => some (.namedU (qualifyName (effectiveNs ns ctx) n))
  | .enumN n ns _ _ => some (.namedU (qualifyName (effectiveNs ns ctx) n))
  | .fixedN n ns _ _ => some (.namedU (qualifyName (effectiveNs ns ctx) n))
  | .arrayN _ => some .arrayU
  | .mapN _ => some .mapU
  | .unionN _ => none

def isNumericPrim : PrimKind → Bool
  | .intK | .longK | .floatK | .doubleK => true
  | _ => false

/-- Default-value compatibility (spec §4.2): numeric kinds are
cross-compatible; `null` needs a `null` type or a union containing `null`;
a string literal fits `string`/`bytes`/`enum`/`fixed`; a named reference's
kind is not tracked, so it accepts the literal. -/
def defaultOk : Json → SchemaNode → Bool
  | .jnull, .prim .nullK => true
  | .jnull, .unionN bs =>
      bs.any fun b => match b with | .prim .nullK => true | _ => false
  | .jnull, .ref _ => true
  | .jbool _, .prim .boolK => true
  | .jbool _, .unionN bs =>
      bs.any fun b => match b with | .prim .boolK => true | _ => false
  | .jbool _, .ref _ => true
  | .jnum _, .prim k => isNumericPrim k
  | .jnum _, .unionN bs =>
      bs.any fun b => match b with | .prim k => isNumericPrim k | _ => false
  | .jnum _, .ref _ => true
  | .jstr _, .prim .stringK => true
  | .jstr _, .prim .bytesK => true
  | .jstr _, .enumN _ _ _ _ => true
  | .jstr _, .fixedN _ _ _ _ => true
  | .jstr _, .unionN bs =>
      bs.any fun b =>
        match b with
        | .prim .stringK => true
        | .prim .bytesK => true
        | .enumN _ _ _ _ => true
        | .fixedN _ _ _ _ => true
        | .ref _ => true
        | _ => false
  | .jstr _, .ref _ => true
  | .jarr _, .arrayN _ => true
  | .jarr _, .ref _ => true
  | .jobj _, .record _ _ _ _ => true
  | .jobj _, .mapN _ => true
  | .jobj _, .ref _ => true
  | _, _ => false

/-- Declare a named type (spec §4.3): a duplicate qualified name is an
error; otherwise the name is pushed onto the symbol table. -/
def declareName (q : String) (k : NamedKind) (st : SymTab) (es : ErrorState) :
    SymTab × ErrorState :=
  if (lookupSym st q).isSome then (st, recordError es ("Duplicate name: " ++ q))
  else ((q, k) :: st, es)

/-- Resolve a bare type-name string (spec §4.1/§4.3): a primitive name, else
a declared name tried fully qualified first and then relative to the current
namespace; an unknown name is an undefined-name error (the reference is
still produced best-effort). -/
def resolveName (ctx : String) (s : String) (st : SymTab) (es : ErrorState) :
    SchemaNode × SymTab × ErrorState :=
  match primOfName s with
  | some k => (.prim k, st, es)
  | none =>
      if (lookupSym st s).isSome then (.ref s, st, es)
      else if (lookupSym st (qualifyName ctx s)).isSome then
        (.ref (qualifyName ctx s), st, es)
      else (.ref s, st, recordError es ("Undefined type: " ++ s))

/-- One diagnostic per union branch that is itself a union or repeats an
earlier branch's compatibility key (spec §3/§4.1). -/
def unionDupErrors (ctx : String) (seen : List UnionKey) (es : ErrorState) :
    List SchemaNode → ErrorState
  | [] => es
  | b :: rest =>
      match unionKeyOf ctx b with
      | none => unionDupErrors ctx seen (recordError es "Union may not contain union") rest
      | some k =>
          if seen.contains k then
            unionDupErrors ctx seen (recordError es "Duplicate type in union") rest
          else unionDupErrors ctx (k :: seen) es rest

/-- One diagnostic per enum symbol that is not a string or repeats an
earlier symbol; returns the accepted symbols in order. -/
def enumSymbols (seen : List String) (es : ErrorState) :
    List Json → List String × ErrorState
  | [] => ([], es)
  | .jstr s :: rest =>
      if seen.contains s then
        let r := enumSymbols seen (recordError es ("Duplicate symbol: " ++ s)) rest
        (s :: r.1, r.2)
      else
        let r := enumSymbols (s :: seen) es rest
        (s :: r.1, r.2)
  | _ :: rest => enumSymbols seen (recordError es "Enum symbol must be a string") rest

/-- One diagnostic per record field whose name repeats an earlier one. -/
def fieldDupErrors (seen : List String) (es : ErrorState) :
    List SchemaField → ErrorState
  | [] => es
  | f :: rest =>
      if seen.contains f.fname then
        fieldDupErrors seen (recordError es ("Duplicate field name: " ++ f.fname)) rest
      else fieldDupErrors (f.fname :: seen) es rest

/-- The optional string value of a member (`doc`, `namespace`). -/
def strAttr (k : String) (ms : List (String × Json)) : Option String :=
  match lookupJ k ms with
  | some (.jstr s) => some s
  | _ => none

/-! ## The type graph builder (spec §4.1, accumulate-all mode)

On any local error a diagnostic goes to the error accumulator and a
best-effort node is returned, so that sibling subtrees are still checked;
the compile entry point refuses to expose the graph when the accumulator
has errored.  `fuel` bounds the JSON nesting depth the builder will walk
(the entry point passes the tree's depth plus one, so it never runs out). -/

mutual

/-- Build one schema node from a JSON value under namespace context `ctx`. -/
def buildJ (fuel : Nat) (ctx : String) (j : Json) (st : SymTab) (es : ErrorState) :
    SchemaNode × SymTab × ErrorState :=
  match fuel with
  | 0 => (.prim .nullK, st, recordError es "Schema too deeply nested")
  | fuel + 1 =>
      match j with
      | .jstr s => resolveName ctx s st es
      | .jarr elems =>
          let r := buildUnionBranches fuel ctx elems st es
          (.unionN r.1, r.2.1, unionDupErrors ctx [] r.2.2 r.1)
      | .jobj ms =>
          match lookupJ "type" ms with
          | some (.jstr t) =>
              match primOfName t with
              | some k => (.prim k, st, es)
              | none =>
                  if t = "record" || t = "error" then
                    match lookupJ "name" ms with
                    | some (.jstr nm) =>
                        let nsA := strAttr "namespace" ms
                        let docA := strAttr "doc" ms
                        let ctx' := effectiveNs nsA ctx
                        let d := declareName (qualifyName ctx' nm) .recordK st es
                        match lookupJ "fields" ms with
                        | some (.jarr fs) =>
                            let r := buildFieldList fuel ctx' fs d.1 d.2
                            (.record nm nsA docA r.1, r.2.1,
                             fieldDupErrors [] r.2.2 r.1)
                        | some _ =>
                            (.record nm nsA docA [], d.1,
                             recordError d.2 "Record fields must be an array")
                        | none =>
                            (.record nm nsA docA [], d.1,
                             recordError d.2 "Missing fields in record")
                    | _ => (.prim .nullK, st, recordError es "Missing name in record")
                  else if t = "enum" then
                    match lookupJ "name" ms with
                    | some (.jstr nm) =>
                        let nsA := strAttr "namespace" ms
                        let docA := strAttr "doc" ms
                        let ctx' := effectiveNs nsA ctx
                        let d := declareName (qualifyName ctx' nm) .enumK st es
                        match lookupJ "symbols" ms with
                        | some (.jarr syms) =>
                            let r := enumSymbols [] d.2 syms
                            (.enumN nm nsA docA r.1, d.1, r.2)
                        | some _ =>
                            (.enumN nm nsA docA [], d.1,
                             recordError d.2 "Enum symbols must be an array")
                        | none =>
                            (.enumN nm nsA docA [], d.1,
                             recordError d.2 "Missing symbols in enum")
                    | _ => (.prim .nullK, st, recordError es "Missing name in enum")
                  else if t = "array" then
                    match lookupJ "items" ms with
                    | some iv =>
                        let r := buildJ fuel ctx iv st es
                        (.arrayN r.1, r.2)
                    | none => (.arrayN (.prim .nullK), st,
                               recordError es "Missing items in array")
                  else if t = "map" then
                    match lookupJ "values" ms with
                    | some vv =>
                        let r := buildJ fuel ctx vv st es
                        (.mapN r.1, r.2)
                    | none => (.mapN (.prim .nullK), st,
                               recordError es "Missing values in map")
                  else if t = "fixed" then
                    match lookupJ "name" ms with
                    | some (.jstr nm) =>
                        let nsA := strAttr "namespace" ms
                        let docA := strAttr "doc" ms
                        let ctx' := effectiveNs nsA ctx
                        let d := declareName (qualifyName ctx' nm) .fixedK st es
                        match lookupJ "size" ms with
                        | some (.jnum raw) =>
                            match parseIntRaw raw with
                            | some i =>
                                if 0 < i then (.fixedN nm nsA docA i.toNat, d.1, d.2)
                                else (.fixedN nm nsA docA 0, d.1,
                                      recordError d.2 "Fixed size must be positive")
                            | none => (.fixedN nm nsA docA 0, d.1,
                                       recordError d.2 "Fixed size must be an integer")
                        | some _ => (.fixedN nm nsA docA 0, d.1,
                                     recordError d.2 "Fixed size must be an integer")
                        | none => (.fixedN nm nsA docA 0, d.1,
                                   recordError d.2 "Missing size in fixed")
                    | _ => (.prim .nullK, st, recordError es "Missing name in fixed")
                  else (.prim .nullK, st, recordError es ("Unknown type: " ++ t))
          | some _ => (.prim .nullK, st, recordError es "Type attribute must be a string")
          | none => (.prim .nullK, st, recordError es "Missing type attribute")
      | _ => (.prim .nullK, st, recordError es "Invalid schema")
termination_by structural fuel

/-- Build the branches of a union left to right, threading the symbol table. -/
def buildUnionBranches (fuel : Nat) (ctx : String) (elems : List Json)
    (st : SymTab) (es : ErrorState) : List SchemaNode × SymTab × ErrorState :=
  match fuel with
  | 0 => ([], st, recordError es "Schema too deeply nested")
  | fuel + 1 =>
      match elems with
      | [] => ([], st, es)
      | e :: rest =>
          let r := buildJ fuel ctx e st es
          let r' := buildUnionBranches fuel ctx rest r.2.1 r.2.2
          (r.1 :: r'.1, r'.2)
termination_by structural fuel

/-- Build a record's fields left to right: each field needs a string `name`
and a `type`; the declared default literal is checked against the built
field type (spec §4.2). -/
def buildFieldList (fuel : Nat) (ctx : String) (fs : List Json)
    (st : SymTab) (es : ErrorState) : List SchemaField × SymTab × ErrorState :=
  match fuel with
  | 0 => ([], st, recordError es "Schema too deeply nested")
  | fuel + 1 =>
      match fs with
      | [] => ([], st, es)
      | .jobj fms :: rest =>
          (match lookupJ "name" fms with
           | some (.jstr fn) =>
               match lookupJ "type" fms with
               | some tv =>
                   let r := buildJ fuel ctx tv st es
                   let dflt := lookupJ "default" fms
                   let es1 :=
                     match dflt with
                     | some d =>
                         if defaultOk d r.1 then r.2.2
                         else recordError r.2.2 "Default value type mismatch"
                     | none => r.2.2
                   let r' := buildFieldList fuel ctx rest r.2.1 es1
                   (.mk fn (strAttr "doc" fms) r.1 dflt :: r'.1, r'.2)
               | none =>
                   buildFieldList fuel ctx rest st
                     (recordError es "Missing type in record field")
           | _ =>
               buildFieldList fuel ctx rest st
                 (recordError es "Missing name in record field"))
      | _ :: rest =>
          buildFieldList fuel ctx rest st
            (recordError es "Record field must be an object")
termination_by structural fuel

end

mutual

/-- Total node count of a JSON value (used to bound the builder's fuel). -/
def jsize : Json → Nat
  | .jarr es => 1 + jsizeList es
  | .jobj ms => 1 + jsizeMembers ms
  | _ => 1
termination_by structural j => j

/-- Total node count of the elements (each list link also counts one). -/
def jsizeList : List Json → Nat
  | [] => 0
  | e :: es => 1 + jsize e + jsizeList es
termination_by structural es => es

/-- Total node count of the member values (each member also counts one). -/
def jsizeMembers : List (String × Json) → Nat
  | [] => 0
  | (_, v) :: ms => 1 + jsize v + jsizeMembers ms
termination_by structural ms => ms

end

/-- Compile a parsed JSON document into a schema node (accumulate-all). -/
def compileJson (j : Json) (es : ErrorState) : SchemaNode × SymTab × ErrorState :=
  buildJ (jsize j + 1) "" j [] es

/-- `compileJsonSchemaFromString`: parse, then build; a compilation that
recorded any error never exposes the graph (spec §7). -/
def compileJsonSchemaFromString (s : String) (es : ErrorState) :
    Option SchemaNode × ErrorState :=
  match parseText s with
  | none => (none, recordError es "Unable to parse schema")
  | some j =>
      let r := compileJson j es
      if r.2.2.has_errored then (none, r.2.2) else (some r.1, r.2.2)

/-- Compile starting from a fresh error accumulator. -/
def compileNew (s : String) : Option SchemaNode × ErrorState :=
  compileJsonSchemaFromString s initErrorState

/-! ## The canonical serializer (spec §4.4, §6)

Key order per type: `type`, then `namespace`/`name` when present, then
`doc` when present, then the structural key; a field is `name`, `type`,
`doc`, `default`.  Primitives and named-type references render as bare
quoted names. -/

/-- Most-significant-first decimal digits of `n`, prepended to `acc`; `fuel`
bounds the digit count (`n + 1` is always enough). -/
def natDigitsRec (fuel : Nat) (n : Nat) (acc : List Char) : List Char :=
  match fuel with
  | 0 => acc
  | fuel + 1 =>
      let d := Char.ofNat ('0'.toNat + n % 10)
      if n < 10 then d :: acc else natDigitsRec fuel (n / 10) (d :: acc)

/-- The decimal literal text of `n`. -/
def natLit (n : Nat) : String :=
  String.mk (natDigitsRec (n + 1) n [])

/-- `namespace` member, when the attribute was present. -/
def nsMember : Option String → List (String × Json)
  | none => []
  | some s => [("namespace", .jstr s)]

/-- `doc` member, when the attribute was present. -/
def docMember : Option String → List (String × Json)
  | none => []
  | some s => [("doc", .jstr s)]

/-- `default` member, when the field declared one. -/
def dfltMember : Option Json → List (String × Json)
  | none => []
  | some d => [("default", d)]

mutual

/-- The canonical JSON value of a schema node. -/
def jsonOfNode : SchemaNode → Json
  | .prim k => .jstr (primName k)
  | .ref q => .jstr q
  | .record nm ns doc fs =>
      .jobj ([("type", .jstr "record")] ++ nsMember ns ++ [("name", .jstr nm)] ++
             docMember doc ++ [("fields", .jarr (jsonOfFields fs))])
  | .enumN nm ns doc syms =>
      .jobj ([("type", .jstr "enum")] ++ nsMember ns ++ [("name", .jstr nm)] ++
             docMember doc ++ [("symbols", .jarr (syms.map .jstr))])
  | .arrayN it => .jobj [("type", .jstr "array"), ("items", jsonOfNode it)]
  | .mapN v => .jobj [("type", .jstr "map"), ("values", jsonOfNode v)]
  | .unionN bs => .jarr (jsonOfBranches bs)
  | .fixedN nm ns doc size =>
      .jobj ([("type", .jstr "fixed")] ++ nsMember ns ++ [("name", .jstr nm)] ++
             docMember doc ++ [("size", .jnum (natLit size))])
termination_by structural n => n

/-- The canonical JSON values of a record's fields. -/
def jsonOfFields : List SchemaField → List Json
  | [] => []
  | .mk n doc ty dflt :: rest =>
      .jobj ([("name", .jstr n), ("type", jsonOfNode ty)] ++ docMember doc ++
             dfltMember dflt) :: jsonOfFields rest
termination_by structural fs => fs

/-- The canonical JSON values of a union's branches. -/
def jsonOfBranches : List SchemaNode → List Json
  | [] => []
  | b :: rest => jsonOfNode b :: jsonOfBranches rest
termination_by structural bs => bs

end

/-- `ValidSchema::toJson`: render the canonical value, pretty or compact. -/
def toJson (n : SchemaNode) (pretty : Bool) : String :=
  renderText pretty (jsonOfNode n)

/-! ## Validity of a compiled graph (spec §3 invariants)

`validIn ctx st n` says that `n` is a graph the compiler could have produced
under namespace context `ctx` with the symbol table `st` already populated:
named types are fresh and declared before use, references resolve, enum
symbols and field names are distinct, union branches have pairwise distinct
compatibility keys, fixed sizes are positive, and defaults fit their field
types.  The threading of declarations mirrors the builder's. -/

/-- No symbol repeats (`seen` are the symbols already taken). -/
def symbolsOk (seen : List String) : List String → Bool
  | [] => true
  | s :: rest => !(seen.contains s) && symbolsOk (s :: seen) rest

/-- No field name repeats. -/
def fieldNamesOk (seen : List String) : List SchemaField → Bool
  | [] => true
  | f :: rest => !(seen.contains f.fname) && fieldNamesOk (f.fname :: seen) rest

/-- Every branch has a union key and no key repeats. -/
def unionKeysOk (ctx : String) (seen : List UnionKey) : List SchemaNode → Bool
  | [] => true
  | b :: rest =>
      match unionKeyOf ctx b with
      | none => false
      | some k => !(seen.contains k) && unionKeysOk ctx (k :: seen) rest

mutual

/-- The named-type declarations the builder records while (re)building `n`,
most recent first. -/
def declsOf (ctx : String) : SchemaNode → SymTab
  | .prim _ => []
  | .ref _ => []
  | .record nm ns _ fs =>
      declsFields (effectiveNs ns ctx) fs ++
        [(qualifyName (effectiveNs ns ctx) nm, .recordK)]
  | .enumN nm ns _ _ => [(qualifyName (effectiveNs ns ctx) nm, .enumK)]
  | .arrayN it => declsOf ctx it
  | .mapN v => declsOf ctx v
  | .unionN bs => declsBranches ctx bs
  | .fixedN nm ns _ _ => [(qualifyName (effectiveNs ns ctx) nm, .fixedK)]
termination_by structural n => n

/-- Declarations made while building a record's fields, most recent first. -/
def declsFields (ctx : String) : List SchemaField → SymTab
  | [] => []
  | .mk _ _ ty _ :: rest => declsFields ctx rest ++ declsOf ctx ty
termination_by structural fs => fs

/-- Declarations made while building a union's branches, most recent first. -/
def declsBranches (ctx : String) : List SchemaNode → SymTab
  | [] => []
  | b :: rest => declsBranches ctx rest ++ declsOf ctx b
termination_by structural bs => bs

end

/-- Well-formed number literal: nonempty, digits-or-sign characters only,
starting the way the tokenizer recognizes a number. -/
def wfNum (raw : String) : Bool :=
  match raw.toList with
  | [] => false
  | c :: cs => (isDigitC c || c = '-') && (c :: cs).all isNumC

mutual

/-- A JSON value the renderer can print and the parser read back. -/
def wfJson : Json → Bool
  | .jnull => true
  | .jbool _ => true
  | .jnum raw => wfNum raw
  | .jstr _ => true
  | .jarr es => wfJsonList es
  | .jobj ms => wfJsonMembers ms
termination_by structural j => j

def wfJsonList : List Json → Bool
  | [] => true
  | e :: es => wfJson e && wfJsonList es
termination_by structural es => es

def wfJsonMembers : List (String × Json) → Bool
  | [] => true
  | (_, v) :: ms => wfJson v && wfJsonMembers ms
termination_by structural ms => ms

end

/-- A declared default is absent, or well-formed and compatible with the
declared field type. -/
def defaultCheck (ty : SchemaNode) : Option Json → Bool
  | some d => defaultOk d ty && wfJson d
  | none => true

mutual

/-- Spec §3 invariants, relative to a namespace context and the symbol
table already populated when the node is reached. -/
def validIn (ctx : String) (st : SymTab) : SchemaNode → Bool
  | .prim _ => true
  | .ref q => (primOfName q).isNone && (lookupSym st q).isSome
  | .record nm ns _ fs =>
      !(lookupSym st (qualifyName (effectiveNs ns ctx) nm)).isSome &&
      fieldNamesOk [] fs &&
      validFields (effectiveNs ns ctx)
        ((qualifyName (effectiveNs ns ctx) nm, .recordK) :: st) fs
  | .enumN nm ns _ syms =>
      !(lookupSym st (qualifyName (effectiveNs ns ctx) nm)).isSome &&
      symbolsOk [] syms
  | .arrayN it => validIn ctx st it
  | .mapN v => validIn ctx st v
  | .unionN bs => unionKeysOk ctx [] bs && validBranches ctx st bs
  | .fixedN nm ns _ size =>
      !(lookupSym st (qualifyName (effectiveNs ns ctx) nm)).isSome &&
      decide (0 < size)
termination_by structural n => n

/-- Fields are valid in order, each seeing the declarations of the
previous ones; declared defaults are well-formed and type-compatible. -/
def validFields (ctx : String) (st : SymTab) : List SchemaField → Bool
  | [] => true
  | .mk _ _ ty dflt :: rest =>
      validIn ctx st ty && defaultCheck ty dflt &&
      validFields ctx (declsOf ctx ty ++ st) rest
termination_by structural fs => fs

/-- Branches are valid in order, each seeing the previous declarations. -/
def validBranches (ctx : String) (st : SymTab) : List SchemaNode → Bool
  | [] => true
  | b :: rest =>
      validIn ctx st b && validBranches ctx (declsOf ctx b ++ st) rest
termination_by structural bs => bs

end

/-- A schema graph the compile entry point could have produced: valid at
the root namespace with an empty symbol table. -/
def validSchema (n : SchemaNode) : Bool :=
  validIn "" [] n

/-! ## The documents exercised by `SchemaTests.cc` -/

/-- The `roundTripSchemas` array of `SchemaTests.cc` (`error` schemas are
excluded there: they cannot round-trip). -/
def roundTripSchemas : List String := [
  "\"null\"", "\"boolean\"", "\"int\"", "\"long\"", "\"float\"", "\"double\"",
  "\"bytes\"", "\"string\"",
  "\x7b\"type\":\"record\",\"name\":\"Test\",\"fields\":[]\x7d",
  "\x7b\"type\":\"record\",\"name\":\"Test\",\"fields\":[\x7b\"name\":\"f\",\"type\":\"long\"\x7d]\x7d",
  "\x7b\"type\":\"record\",\"name\":\"Test\",\"fields\":[\x7b\"name\":\"f1\",\"type\":\"long\"\x7d,\x7b\"name\":\"f2\",\"type\":\"int\"\x7d]\x7d",
  "\x7b\"type\":\"record\",\"name\":\"LongList\",\"fields\":[\x7b\"name\":\"value\",\"type\":\"long\"\x7d,\x7b\"name\":\"next\",\"type\":[\"LongList\",\"null\"]\x7d]\x7d",
  "\x7b\"type\":\"enum\",\"name\":\"Test\",\"symbols\":[\"A\",\"B\"]\x7d",
  "\x7b\"type\":\"array\",\"items\":\"long\"\x7d",
  "\x7b\"type\":\"array\",\"items\":\x7b\"type\":\"enum\",\"name\":\"Test\",\"symbols\":[\"A\",\"B\"]\x7d\x7d",
  "\x7b\"type\":\"map\",\"values\":\"long\"\x7d",
  "\x7b\"type\":\"map\",\"values\":\x7b\"type\":\"enum\",\"name\":\"Test\",\"symbols\":[\"A\",\"B\"]\x7d\x7d",
  "[\"string\",\"null\",\"long\"]",
  "\x7b\"type\":\"fixed\",\"name\":\"Test\",\"size\":1\x7d",
  "\x7b\"type\":\"fixed\",\"namespace\":\"org.apache.hadoop.avro\",\"name\":\"MyFixed\",\"size\":1\x7d",
  "\x7b\"type\":\"fixed\",\"name\":\"Test\",\"size\":1\x7d",
  "\x7b\"type\":\"fixed\",\"name\":\"Test\",\"size\":1\x7d"]

/-- Does `s` compile cleanly and serialize compactly back to itself? -/
def roundTripsExactly (s : String) : Bool :=
  match compileNew s with
  | (some n, es) => toJson n false == s && !es.has_errored
  | (none, _) => false

/-- The literal round-trip case of spec §8. -/
def arrayLongDoc : String := "\x7b\"type\":\"array\",\"items\":\"long\"\x7d"

/-- A valid schema carrying an unrecognized extra attribute (`basicSchemas`
carries several; this one is whitespace-free so it equals its own
whitespace-stripped form). -/
def extraAttrDoc : String := "\x7b\"type\":\"null\",\"extra\":\"ignored\"\x7d"

/-- The self-recursive record of `basicSchemas`/`roundTripSchemas`. -/
def longListDoc : String :=
  "\x7b\"type\":\"record\",\"name\":\"LongList\",\"fields\":[\x7b\"name\":\"value\",\"type\":\"long\"\x7d,\x7b\"name\":\"next\",\"type\":[\"LongList\",\"null\"]\x7d]\x7d"

/-- The same record with the undeclared name `LongListA` (from
`basicSchemaErrors`). -/
def longListBadDoc : String :=
  "\x7b\"type\":\"record\",\"name\":\"LongList\",\"fields\":[\x7b\"name\":\"value\",\"type\":\"long\"\x7d,\x7b\"name\":\"next\",\"type\":[\"LongListA\",\"null\"]\x7d]\x7d"

/-- The duplicate-symbol enum of `basicSchemaErrors`. -/
def enumDupDoc : String :=
  "\x7b\"type\": \"enum\", \"name\": \"Test\",\"symbols\" : [\"AA\", \"AA\"]\x7d"

/-- The duplicate-member union of `basicSchemaErrors`. -/
def unionDupDoc : String := "[\"string\", \"long\", \"long\"]"

/-- `double` field with integer default (from `basicSchemas`). -/
def dblDefaultIntDoc : String :=
  "\x7b \"name\":\"test\", \"type\": \"record\", \"fields\": [ \x7b\"name\": \"double\",\"type\": \"double\",\"default\" : 2 \x7d]\x7d"

/-- `double` field with floating-point default (from `basicSchemas`). -/
def dblDefaultFloatDoc : String :=
  "\x7b \"name\":\"test\", \"type\": \"record\", \"fields\": [ \x7b\"name\": \"double\",\"type\": \"double\",\"default\" : 1.2 \x7d]\x7d"

/-- `double` field with `null` default (from `basicSchemaErrors`). -/
def dblDefaultNullDoc : String :=
  "\x7b \"name\":\"test\", \"type\": \"record\", \"fields\": [ \x7b\"name\": \"double\",\"type\": \"double\",\"default\" : null \x7d]\x7d"

/-- `double` field with string default (from `basicSchemaErrors`). -/
def dblDefaultStrDoc : String :=
  "\x7b \"name\":\"test\", \"type\": \"record\", \"fields\": [ \x7b\"name\": \"double\",\"type\": \"double\",\"default\" : \"string\" \x7d]\x7d"

/-- A document with two independently detectable errors in separate union
branches: an undefined field-type name in the record, and a duplicate
symbol in the enum (spec §8, accumulate-all mode). -/
def twoErrorsDoc : String :=
  "[\x7b\"type\":\"record\",\"name\":\"R\",\"fields\":[\x7b\"name\":\"f\",\"type\":\"Undef\"\x7d]\x7d,\x7b\"type\":\"enum\",\"name\":\"E\",\"symbols\":[\"AA\",\"AA\"]\x7d]"

end Avro

/-! ## Theorems about the error accumulator -/

namespace Avro

theorem foldl_string_append (l : List String) :
    ∀ a : String, l.foldl (· ++ ·) a = a ++ l.foldl (· ++ ·) "" := by
  induction l with
  | nil => intro a; simp
  | cons x xs ih =>
      intro a
      simp only [List.foldl_cons]
      rw [ih (a ++ x), ih ("" ++ x)]
      simp [String.append_assoc]

theorem throwErrorLoop_out (msgs : List String) :
    ∀ out : String, throwErrorLoop msgs out = out ++ String.join (msgs.map (· ++ "\n")) := by
  induction msgs with
  | nil => intro out; simp [throwErrorLoop, String.join]
  | cons m rest ih =>
      intro out
      simp only [throwErrorLoop, List.map_cons, String.join, List.foldl_cons]
      rw [ih]
      simp only [String.join]
      rw [foldl_string_append (List.map (fun x => x ++ "\n") rest) ("" ++ (m ++ "\n"))]
      simp [String.append_assoc]

/-- C1: `recordError(m)` sets the flag and appends `m` at the back, keeping
every previously queued message in front of it. -/
theorem recordError_appends_and_sets_flag (s : ErrorState) (m : String) :
    (recordError s m).has_errored = true ∧
    (recordError s m).error_state_messages = s.error_state_messages ++ [m] :=
  ⟨rfl, rfl⟩

/-- C2: `throwError`/`emptyState` drain the queue: the text written to the
stream is every queued message followed by a newline, in queue order; the
null-sink variant produces the same final state; afterwards the queue is
empty and the flag is cleared. -/
theorem drain_flushes (s : ErrorState) :
    (drain s).1 = String.join (s.error_state_messages.map (· ++ "\n")) ∧
    (drain s).2.error_state_messages = [] ∧
    (drain s).2.has_errored = false ∧
    emptyState s = (drain s).2 := by
  refine ⟨?_, rfl, rfl, rfl⟩
  simp only [drain, throwErrorLoop_out]
  simp

/-- C10: starting from the zero-initialized state, after any finite sequence
of `recordError` / `throwError` / `emptyState` calls, the queue can only be
non-empty while the flag is set. -/
theorem errorState_invariant (ops : List ErrOp) :
    (runErrOps initErrorState ops).error_state_messages = [] ∨
    (runErrOps initErrorState ops).has_errored = true := by
  have key : ∀ (ops : List ErrOp) (s : ErrorState),
      s.error_state_messages = [] ∨ s.has_errored = true →
      (runErrOps s ops).error_state_messages = [] ∨
      (runErrOps s ops).has_errored = true := by
    intro ops
    induction ops with
    | nil => intro s h; exact h
    | cons op rest ih =>
        intro s _
        show (runErrOps (applyErrOp s op) rest).error_state_messages = [] ∨ _
        apply ih
        cases op with
        | record m => right; rfl
        | throwOut => left; rfl
        | empty => left; rfl
  exact key ops initErrorState (Or.inl rfl)

/-! ## Theorems about the modelled schema compiler -/

/-- C3 (counterexample): the claim's universal round-trip property fails on
the code: a schema carrying an unrecognized extra attribute is valid (it
compiles with no error) and already whitespace-free, yet its compact
serialization drops the attribute and so differs from the original. -/
theorem roundtrip_extra_attribute_counterexample :
    (compileNew extraAttrDoc).1.isSome = true ∧
    (compileNew extraAttrDoc).2.has_errored = false ∧
    extraAttrDoc.toList.all (fun c => !isWsC c) = true ∧
    (compileNew extraAttrDoc).1.map (toJson · false) = some "\"null\"" ∧
    (compileNew extraAttrDoc).1.map (toJson · false) ≠ some extraAttrDoc := by
  refine ⟨rfl, rfl, by decide, rfl, ?_⟩
  intro h
  rw [show (compileNew extraAttrDoc).1.map (toJson · false) = some "\"null\"" from rfl] at h
  simp only [Option.some.injEq] at h
  exact absurd h (by decide)

/-- C3 (amended): every document of the repository's round-trip test set —
valid schemas in canonical key order, without unrecognized attributes and
already whitespace-free — compiles cleanly and serializes compactly back to
exactly itself; in particular the literal array-of-long case does. -/
theorem roundtrip_canonical_schemas :
    roundTripSchemas.all roundTripsExactly = true ∧
    (compileNew arrayLongDoc).1.map (toJson · false) = some arrayLongDoc := by
  exact ⟨by decide, rfl⟩

/-- C4: the self-recursive `LongList` record compiles with no error, while
the variant whose `next` union names the undeclared `LongListA` yields no
schema and records exactly an undefined-name diagnostic. -/
theorem recursive_record_ok_undefined_name_fails :
    (compileNew longListDoc).1.isSome = true ∧
    (compileNew longListDoc).2.has_errored = false ∧
    (compileNew longListBadDoc).1 = none ∧
    (compileNew longListBadDoc).2.has_errored = true ∧
    (compileNew longListBadDoc).2.error_state_messages =
      ["Undefined type: LongListA"] :=
  ⟨rfl, rfl, rfl, rfl, rfl⟩

/-- C5: a duplicated enum symbol and a duplicated union member each make
compilation fail with the corresponding diagnostic, and in both cases the
accumulator's `has_errored` flag is set after the compile call. -/
theorem duplicate_enum_symbol_and_union_member_fail :
    (compileNew enumDupDoc).1 = none ∧
    (compileNew enumDupDoc).2.has_errored = true ∧
    (compileNew enumDupDoc).2.error_state_messages = ["Duplicate symbol: AA"] ∧
    (compileNew unionDupDoc).1 = none ∧
    (compileNew unionDupDoc).2.has_errored = true ∧
    (compileNew unionDupDoc).2.error_state_messages = ["Duplicate type in union"] :=
  ⟨rfl, rfl, rfl, rfl, rfl, rfl⟩

/-- C6: a `double` field accepts an integer or floating-point default, but a
`null` or string default fails with a default-value-type-mismatch error. -/
theorem double_field_default_typing :
    (compileNew dblDefaultIntDoc).1.isSome = true ∧
    (compileNew dblDefaultIntDoc).2.has_errored = false ∧
    (compileNew dblDefaultFloatDoc).1.isSome = true ∧
    (compileNew dblDefaultFloatDoc).2.has_errored = false ∧
    (compileNew dblDefaultNullDoc).1 = none ∧
    (compileNew dblDefaultNullDoc).2.has_errored = true ∧
    (compileNew dblDefaultNullDoc).2.error_state_messages =
      ["Default value type mismatch"] ∧
    (compileNew dblDefaultStrDoc).1 = none ∧
    (compileNew dblDefaultStrDoc).2.has_errored = true ∧
    (compileNew dblDefaultStrDoc).2.error_state_messages =
      ["Default value type mismatch"] :=
  ⟨rfl, rfl, rfl, rfl, rfl, rfl, rfl, rfl, rfl, rfl⟩

/-! ## Canonical string escaping (C7) -/

theorem hexDigitVal_hexDigitChar (d : Nat) (h : d < 16) :
    hexDigitVal (hexDigitChar d) = some d := by
  interval_cases d <;> decide

theorem escapeChar_of_ge (c : Char) (h : 0x20 ≤ c.toNat) (hq : c ≠ '"')
    (hb : c ≠ '\\') : escapeChar c = [c] := by
  have hn : c ≠ '\n' := fun e => by subst e; exact absurd h (by decide)
  have ht : c ≠ '\t' := fun e => by subst e; exact absurd h (by decide)
  have hr : c ≠ '\r' := fun e => by subst e; exact absurd h (by decide)
  have h8 : c ≠ Char.ofNat 8 := fun e => by subst e; exact absurd h (by decide)
  have h12 : c ≠ Char.ofNat 12 := fun e => by subst e; exact absurd h (by decide)
  simp only [escapeChar, if_neg hq, if_neg hb, if_neg hn, if_neg ht, if_neg hr,
    if_neg h8, if_neg h12, if_neg (Nat.not_lt.mpr h)]

theorem escapeChar_of_ctrl (c : Char) (h : c.toNat < 0x20)
    (hn : c ≠ '\n') (ht : c ≠ '\t') (hr : c ≠ '\r')
    (h8 : c ≠ Char.ofNat 8) (h12 : c ≠ Char.ofNat 12) :
    escapeChar c =
      ['\\', 'u', '0', '0', hexDigitChar (c.toNat / 16), hexDigitChar (c.toNat % 16)] ∧
    hexQuad '0' '0' (hexDigitChar (c.toNat / 16)) (hexDigitChar (c.toNat % 16)) =
      some c.toNat := by
  have hq : c ≠ '"' := fun e => by subst e; exact absurd h (by decide)
  have hb : c ≠ '\\' := fun e => by subst e; exact absurd h (by decide)
  refine ⟨?_, ?_⟩
  · simp only [escapeChar, if_neg hq, if_neg hb, if_neg hn, if_neg ht, if_neg hr,
      if_neg h8, if_neg h12, if_pos h]
  · have hz : hexDigitVal '0' = some 0 := by decide
    have hx : hexDigitVal (hexDigitChar (c.toNat / 16)) = some (c.toNat / 16) :=
      hexDigitVal_hexDigitChar _ (by omega)
    have hy : hexDigitVal (hexDigitChar (c.toNat % 16)) = some (c.toNat % 16) :=
      hexDigitVal_hexDigitChar _ (by omega)
    simp only [hexQuad, hz, hx, hy, Option.bind_eq_bind, Option.some_bind,
      Option.pure_def, Option.some.injEq]
    omega

theorem scanString_raw_step (acc : List Char) (c : Char) (rest : List Char)
    (hq : c ≠ '"') (hb : c ≠ '\\') :
    scanString acc (c :: rest) = scanString (c :: acc) rest := by
  rw [scanString.eq_def]
  split
  · rename_i heq; cases heq; exact absurd rfl hq
  · rename_i heq; cases heq; exact absurd rfl hb
  · rename_i heq; cases heq; exact absurd rfl hb
  · rename_i heq; cases heq; exact absurd rfl hb
  · rename_i heq; cases heq; rfl
  · rename_i heq; cases heq

theorem decode_u_escape_eq_raw (c h1 h2 h3 h4 : Char) (rest : List Char)
    (hv : hexQuad h1 h2 h3 h4 = some c.toNat) (hq : c ≠ '"') (hb : c ≠ '\\') :
    decodeStringLit ('\\' :: 'u' :: h1 :: h2 :: h3 :: h4 :: rest) =
      decodeStringLit (c :: rest) := by
  unfold decodeStringLit
  simp only [List.cons_append]
  have L : scanString [] ('\\' :: 'u' :: h1 :: h2 :: h3 :: h4 :: (rest ++ ['"'])) =
      match hexQuad h1 h2 h3 h4 with
      | some n => scanString [Char.ofNat n] (rest ++ ['"'])
      | none => none := rfl
  rw [L, hv, scanString_raw_step [] c (rest ++ ['"']) hq hb]
  show Option.map Prod.fst (scanString [Char.ofNat c.toNat] (rest ++ ['"'])) = _
  rw [Char.ofNat_toNat]

/-- C7: canonical escaping.  Every character at or above 0x20 other than
`"` and `\` is emitted literally; `"` and `\` get their two-character
escapes; the control characters with a standard short escape use it; every
other control character becomes `\u00XX` whose hex digits decode back to
the character; and a `\uXXXX` escape and the raw character it denotes
decode to the same parsed string, hence serialize to the same canonical
output. -/
theorem escaping_canonical :
    (∀ c : Char, 0x20 ≤ c.toNat → c ≠ '"' → c ≠ '\\' → escapeChar c = [c]) ∧
    escapeChar '"' = ['\\', '"'] ∧
    escapeChar '\\' = ['\\', '\\'] ∧
    escapeChar '\n' = ['\\', 'n'] ∧
    escapeChar '\t' = ['\\', 't'] ∧
    escapeChar '\r' = ['\\', 'r'] ∧
    escapeChar (Char.ofNat 8) = ['\\', 'b'] ∧
    escapeChar (Char.ofNat 12) = ['\\', 'f'] ∧
    (∀ c : Char, c.toNat < 0x20 →
      c ≠ '\n' → c ≠ '\t' → c ≠ '\r' → c ≠ Char.ofNat 8 → c ≠ Char.ofNat 12 →
      ∃ x y, escapeChar c = ['\\', 'u', '0', '0', x, y] ∧
        hexQuad '0' '0' x y = some c.toNat) ∧
    (∀ (c h1 h2 h3 h4 : Char) (rest : List Char),
      hexQuad h1 h2 h3 h4 = some c.toNat → c ≠ '"' → c ≠ '\\' →
      decodeStringLit ('\\' :: 'u' :: h1 :: h2 :: h3 :: h4 :: rest) =
        decodeStringLit (c :: rest) ∧
      Option.map escapeString
          (decodeStringLit ('\\' :: 'u' :: h1 :: h2 :: h3 :: h4 :: rest)) =
        Option.map escapeString (decodeStringLit (c :: rest))) := by
  refine ⟨escapeChar_of_ge, by decide, by decide, by decide, by decide, by decide,
    by decide, by decide, ?_, ?_⟩
  · intro c h hn ht hr h8 h12
    obtain ⟨he, hx⟩ := escapeChar_of_ctrl c h hn ht hr h8 h12
    exact ⟨_, _, he, hx⟩
  · intro c h1 h2 h3 h4 rest hv hq hb
    have hd := decode_u_escape_eq_raw c h1 h2 h3 h4 rest hv hq hb
    exact ⟨hd, by rw [hd]⟩

/-- Closed instance of `escaping_canonical`: `ø` (code point 0xf8) written
as the escape `ø` decodes exactly as the raw character, and an
in-range printable character passes through unescaped. -/
theorem escaping_canonical_witness :
    escapeChar 'A' = ['A'] ∧
    decodeStringLit ['\\', 'u', '0', '0', 'f', '8'] = decodeStringLit ['ø'] :=
  ⟨escaping_canonical.1 'A' (by decide) (by decide) (by decide),
   ((escaping_canonical.2.2.2.2.2.2.2.2.2 'ø' '0' '0' 'f' '8' []
      (by decide) (by decide) (by decide)).1)⟩

/-! ## C8 groundwork: decimal literals round-trip -/

theorem natDigitsRec_append (fuel : Nat) : ∀ (n : Nat) (acc : List Char),
    natDigitsRec fuel n acc = natDigitsRec fuel n [] ++ acc := by
  induction fuel with
  | zero => intro n acc; simp [natDigitsRec]
  | succ f ih =>
      intro n acc
      simp only [natDigitsRec]
      by_cases h : n < 10
      · simp [h]
      · simp only [if_neg h]
        rw [ih (n / 10) (Char.ofNat ('0'.toNat + n % 10) :: acc),
            ih (n / 10) (Char.ofNat ('0'.toNat + n % 10) :: [])]
        simp

theorem digitCharWf (m : Nat) (h : m < 10) :
    (Char.ofNat ('0'.toNat + m)).toNat = '0'.toNat + m ∧
    isDigitC (Char.ofNat ('0'.toNat + m)) = true := by
  interval_cases m <;> exact ⟨by decide, by decide⟩

theorem digitsVal_append_one (xs : List Char) (c : Char) :
    digitsVal (xs ++ [c]) = digitsVal xs * 10 + (c.toNat - '0'.toNat) := by
  simp [digitsVal, List.foldl_append]

theorem natDigitsRec_spec : ∀ (fuel n : Nat), n < fuel →
    (∀ c ∈ natDigitsRec fuel n [], isDigitC c = true) ∧
    digitsVal (natDigitsRec fuel n []) = n ∧
    ∃ c t, natDigitsRec fuel n [] = c :: t ∧ isDigitC c = true := by
  intro fuel
  induction fuel with
  | zero => intro n h; omega
  | succ f ih =>
      intro n h
      by_cases h10 : n < 10
      · have hm : n % 10 = n := Nat.mod_eq_of_lt h10
        have hd := digitCharWf (n % 10) (Nat.mod_lt _ (by omega))
        refine ⟨?_, ?_, ?_⟩
        · intro c hc
          simp only [natDigitsRec, if_pos h10, List.mem_singleton] at hc
          subst hc; exact hd.2
        · simp only [natDigitsRec, if_pos h10]
          simp only [digitsVal, List.foldl_cons, List.foldl_nil, hd.1]
          omega
        · exact ⟨Char.ofNat ('0'.toNat + n % 10), [],
            by simp [natDigitsRec, if_pos h10], hd.2⟩
      · have hlt : n / 10 < f := by
          have h1 : n / 10 < n := Nat.div_lt_self (by omega) (by omega)
          omega
        obtain ⟨ihall, ihval, c, t, ihcons, ihcd⟩ := ih (n / 10) hlt
        have hd := digitCharWf (n % 10) (Nat.mod_lt _ (by omega))
        have hstep : natDigitsRec (f + 1) n [] =
            natDigitsRec f (n / 10) [] ++ [Char.ofNat ('0'.toNat + n % 10)] := by
          simp only [natDigitsRec, if_neg h10]
          exact natDigitsRec_append f (n / 10) _
        refine ⟨?_, ?_, ?_⟩
        · intro x hx
          rw [hstep, List.mem_append, List.mem_singleton] at hx
          rcases hx with hx | hx
          · exact ihall x hx
          · subst hx; exact hd.2
        · rw [hstep, digitsVal_append_one, ihval, hd.1]
          omega
        · exact ⟨c, t ++ [Char.ofNat ('0'.toNat + n % 10)],
            by rw [hstep, ihcons]; simp, ihcd⟩

theorem parseIntRaw_natLit (n : Nat) : parseIntRaw (natLit n) = some (n : Int) := by
  obtain ⟨hall, hval, c, t, hcons, hcd⟩ := natDigitsRec_spec (n + 1) n (by omega)
  have htl : (natLit n).toList = natDigitsRec (n + 1) n [] := rfl
  rw [parseIntRaw.eq_def, htl, hcons]
  have hcm : c ≠ '-' := fun e => by subst e; exact absurd hcd (by decide)
  have hallct : (c :: t).all isDigitC = true := by
    rw [List.all_eq_true]
    intro x hx
    exact hall x (hcons ▸ hx)
  split
  · rename_i heq; cases heq
  · rename_i ds heq
    injection heq with h1 h2
    exact absurd h1 hcm
  · rename_i hne1 hne2
    rw [if_pos hallct]
    rw [show digitsVal (c :: t) = n from hcons ▸ hval]

theorem wfNum_natLit (n : Nat) : wfNum (natLit n) = true := by
  obtain ⟨hall, _, c, t, hcons, hcd⟩ := natDigitsRec_spec (n + 1) n (by omega)
  have htl : (natLit n).toList = natDigitsRec (n + 1) n [] := rfl
  rw [wfNum, htl, hcons]
  simp only [hcd, Bool.true_or, Bool.true_and]
  rw [List.all_eq_true]
  intro x hx
  have : isDigitC x = true := hall x (hcons ▸ hx)
  simp [isNumC, this]

/-! ## C8 groundwork: string literals round-trip -/

theorem stringMk_toList (s : String) : String.mk s.toList = s := rfl

theorem scanString_escape_step (c : Char) (acc t : List Char) :
    scanString acc (escapeChar c ++ t) = scanString (c :: acc) t := by
  by_cases h1 : c = '"'
  · subst h1; rfl
  by_cases h2 : c = '\\'
  · subst h2; rfl
  by_cases h3 : c = '\n'
  · subst h3; rfl
  by_cases h4 : c = '\t'
  · subst h4; rfl
  by_cases h5 : c = '\r'
  · subst h5; rfl
  by_cases h6 : c = Char.ofNat 8
  · subst h6; rfl
  by_cases h7 : c = Char.ofNat 12
  · subst h7; rfl
  by_cases h8 : c.toNat < 0x20
  · obtain ⟨he, hx⟩ := escapeChar_of_ctrl c h8 h3 h4 h5 h6 h7
    rw [he]
    simp only [List.cons_append, List.nil_append]
    have L : scanString acc ('\\' :: 'u' :: '0' :: '0' ::
        hexDigitChar (c.toNat / 16) :: hexDigitChar (c.toNat % 16) :: t) =
        match hexQuad '0' '0' (hexDigitChar (c.toNat / 16))
            (hexDigitChar (c.toNat % 16)) with
        | some n => scanString (Char.ofNat n :: acc) t
        | none => none := rfl
    rw [L, hx]
    show scanString (Char.ofNat c.toNat :: acc) t = _
    rw [Char.ofNat_toNat]
  · rw [escapeChar_of_ge c (by omega) h1 h2]
    exact scanString_raw_step acc c t h1 h2

theorem scanString_escapeList : ∀ (cs acc t : List Char),
    scanString acc (escapeList cs ++ '"' :: t) =
      some (String.mk (acc.reverse ++ cs), t) := by
  intro cs
  induction cs with
  | nil => intro acc t; simp [escapeList, scanString]
  | cons c cs ih =>
      intro acc t
      rw [escapeList, List.append_assoc, scanString_escape_step, ih]
      simp

theorem renderStr_scan (s : String) (t : List Char) :
    scanString [] (escapeList s.toList ++ '"' :: t) = some (s, t) := by
  rw [scanString_escapeList]
  simp [stringMk_toList]

theorem stringMk_data (s : String) : String.mk s.data = s := rfl

theorem renderStr_scanL (l : List Char) (t : List Char) :
    scanString [] (escapeList l ++ '"' :: t) = some (String.mk l, t) := by
  rw [scanString_escapeList]
  simp

/-! ## C8 groundwork: whitespace, heads and numeric delimiters -/

theorem skipWsC_not_ws (c : Char) (cs : List Char) (h : isWsC c = false) :
    skipWsC (c :: cs) = c :: cs := by
  simp [skipWsC, h]

theorem skipWsC_ws_append (l : List Char) (h : wsOnly l = true) (cs : List Char) :
    skipWsC (l ++ cs) = skipWsC cs := by
  induction l with
  | nil => simp
  | cons w ws ih =>
      simp only [wsOnly, List.all_cons, Bool.and_eq_true] at h
      simp only [List.cons_append, skipWsC, h.1, if_pos]
      exact ih (by simp [wsOnly, h.2])

theorem wsOnly_nlInd (p : Bool) (i : Nat) : wsOnly (nlInd p i) = true := by
  cases p with
  | false => rfl
  | true =>
      simp only [nlInd, wsOnly, List.all_cons, if_pos, Bool.and_eq_true]
      refine ⟨by decide, ?_⟩
      rw [List.all_eq_true]
      intro c hc
      rw [List.eq_of_mem_replicate hc]
      decide

theorem wsOnly_spIf (p : Bool) : wsOnly (spIf p) = true := by
  cases p <;> decide

theorem skipWsC_nlInd (p : Bool) (i : Nat) (cs : List Char) :
    skipWsC (nlInd p i ++ cs) = skipWsC cs :=
  skipWsC_ws_append _ (wsOnly_nlInd p i) cs

theorem skipWsC_spIf (p : Bool) (cs : List Char) :
    skipWsC (spIf p ++ cs) = skipWsC cs :=
  skipWsC_ws_append _ (wsOnly_spIf p) cs

theorem not_digit_char (c x : Char) (h : isDigitC c = true)
    (hx : isDigitC x = false) : c ≠ x :=
  fun e => by subst e; rw [h] at hx; cases hx

theorem isWsC_isNumC_false (c : Char) (h : isWsC c = true) : isNumC c = false := by
  simp only [isWsC, Bool.or_eq_true, decide_eq_true_eq] at h
  rcases h with ((h | h) | h) | h <;> subst h <;> decide

theorem numStop_ws_cons (ws : List Char) (c : Char) (t : List Char)
    (hw : wsOnly ws = true) (hc : isNumC c = false) :
    numStop (ws ++ c :: t) = true := by
  cases ws with
  | nil => simp [numStop, hc]
  | cons w l =>
      simp only [wsOnly, List.all_cons, Bool.and_eq_true] at hw
      simp [numStop, isWsC_isNumC_false w hw.1]

theorem digit_head_facts (c : Char) (hd : (isDigitC c || c = '-') = true) :
    isWsC c = false ∧ c ≠ 'n' ∧ c ≠ 't' ∧ c ≠ 'f' ∧ c ≠ '"' ∧ c ≠ '[' ∧
    c ≠ '{' ∧ c ≠ ']' ∧ c ≠ '}' ∧ c ≠ ',' := by
  rw [Bool.or_eq_true] at hd
  rcases hd with hd | hd
  · have h1 := not_digit_char c ' ' hd (by decide)
    have h2 := not_digit_char c '\n' hd (by decide)
    have h3 := not_digit_char c '\t' hd (by decide)
    have h4 := not_digit_char c '\r' hd (by decide)
    refine ⟨by simp [isWsC, h1, h2, h3, h4], ?_, ?_, ?_, ?_, ?_, ?_, ?_, ?_, ?_⟩ <;>
      exact not_digit_char c _ hd (by decide)
  · rw [decide_eq_true_eq] at hd
    subst hd
    refine ⟨by decide, ?_, ?_, ?_, ?_, ?_, ?_, ?_, ?_, ?_⟩ <;> decide

theorem takeNum_exact (ds : List Char) (h : ds.all isNumC = true)
    (rest : List Char) (hr : numStop rest = true) :
    takeNum (ds ++ rest) = (ds, rest) := by
  induction ds with
  | nil =>
      cases rest with
      | nil => rfl
      | cons c t =>
          simp only [numStop, Bool.not_eq_true'] at hr
          simp [takeNum, hr]
  | cons d ds ih =>
      simp only [List.all_cons, Bool.and_eq_true] at h
      simp [takeNum, h.1, ih h.2]

theorem parseVal_number (f : Nat) (c : Char) (t : List Char)
    (hd : (isDigitC c || c = '-') = true) :
    parseVal (f + 1) (c :: t) =
      some (.jnum (String.mk (takeNum (c :: t)).1), (takeNum (c :: t)).2) := by
  obtain ⟨hws, hn, ht, hf, hq, hbk, hbc, _, _, _⟩ := digit_head_facts c hd
  rw [parseVal]
  rw [skipWsC_not_ws c t hws]
  split
  · rename_i heq; injection heq with h1 _; exact absurd h1 hn
  · rename_i heq; injection heq with h1 _; exact absurd h1 ht
  · rename_i heq; injection heq with h1 _; exact absurd h1 hf
  · rename_i heq; injection heq with h1 _; exact absurd h1 hq
  · rename_i heq; injection heq with h1 _; exact absurd h1 hbk
  · rename_i heq; injection heq with h1 _; exact absurd h1 hbc
  · rename_i c0 r0 heq
    injection heq with h1 h2
    subst h1; subst h2
    rw [if_pos hd]
  · rename_i heq; cases heq

theorem renderJ_head (p : Bool) (ind : Nat) (j : Json) (hw : wfJson j = true) :
    ∃ c t, renderJ p ind j = c :: t ∧ isWsC c = false ∧ c ≠ ']' ∧ c ≠ '}' ∧
      c ≠ ',' := by
  cases j with
  | jnull => exact ⟨'n', _, rfl, by decide, by decide, by decide, by decide⟩
  | jbool b =>
      cases b with
      | true => exact ⟨'t', _, rfl, by decide, by decide, by decide, by decide⟩
      | false => exact ⟨'f', _, rfl, by decide, by decide, by decide, by decide⟩
  | jstr s => exact ⟨'"', _, rfl, by decide, by decide, by decide, by decide⟩
  | jarr es => exact ⟨'[', _, rfl, by decide, by decide, by decide, by decide⟩
  | jobj ms => exact ⟨'{', _, rfl, by decide, by decide, by decide, by decide⟩
  | jnum raw =>
      simp only [wfJson, wfNum] at hw
      rcases hex : raw.toList with _ | ⟨c, cs⟩ <;> rw [hex] at hw
      · simp at hw
      · simp only [Bool.and_eq_true] at hw
        obtain ⟨h1, _, _, _, _, _, _, h8, h9, h10⟩ := digit_head_facts c hw.1
        exact ⟨c, cs, hex, h1, h8, h9, h10⟩

theorem parseVal_ws (fuel : Nat) (ws cs : List Char) (h : wsOnly ws = true) :
    parseVal fuel (ws ++ cs) = parseVal fuel cs := by
  cases fuel with
  | zero => rfl
  | succ f => rw [parseVal, parseVal, skipWsC_ws_append ws h cs]

theorem parseElems_ws (fuel : Nat) (ws cs : List Char) (h : wsOnly ws = true) :
    parseElems fuel (ws ++ cs) = parseElems fuel cs := by
  cases fuel with
  | zero => rfl
  | succ f => rw [parseElems, parseElems, parseVal_ws f ws cs h]

/-! ## C8 groundwork: the parser inverts the renderer -/

mutual

theorem rt_val : ∀ (j : Json) (p : Bool) (ind fuel : Nat) (rest : List Char),
    wfJson j = true → (renderJ p ind j).length < fuel → numStop rest = true →
    parseVal fuel (renderJ p ind j ++ rest) = some (j, rest)
  | .jnull, p, ind, fuel, rest, _, hf, _ => by
      cases fuel with
      | zero => simp [renderJ] at hf
      | succ f => rfl
  | .jbool true, p, ind, fuel, rest, _, hf, _ => by
      cases fuel with
      | zero => simp [renderJ] at hf
      | succ f => rfl
  | .jbool false, p, ind, fuel, rest, _, hf, _ => by
      cases fuel with
      | zero => simp [renderJ] at hf
      | succ f => rfl
  | .jnum raw, p, ind, fuel, rest, hw, hf, hr => by
      cases fuel with
      | zero => exact absurd hf (by omega)
      | succ f =>
          simp only [wfJson, wfNum] at hw
          rcases hex : raw.toList with _ | ⟨c, cs⟩ <;> rw [hex] at hw
          · simp at hw
          · simp only [Bool.and_eq_true] at hw
            have harg : renderJ p ind (.jnum raw) ++ rest = c :: (cs ++ rest) := by
              rw [show renderJ p ind (.jnum raw) = raw.toList from rfl, hex]
              rfl
            rw [harg, parseVal_number f c (cs ++ rest) hw.1]
            have htn : takeNum (c :: (cs ++ rest)) = (c :: cs, rest) := by
              rw [show c :: (cs ++ rest) = (c :: cs) ++ rest from rfl]
              exact takeNum_exact (c :: cs) hw.2 rest hr
            rw [htn]
            have : String.mk (c :: cs) = raw := by rw [← hex]; exact stringMk_toList raw
            rw [this]
  | .jstr s, p, ind, fuel, rest, _, hf, _ => by
      cases fuel with
      | zero => exact absurd hf (by omega)
      | succ f =>
          have harg : renderJ p ind (.jstr s) ++ rest =
              '"' :: (escapeList s.toList ++ ('"' :: rest)) := by
            simp [renderJ, renderStr]
          rw [harg]
          show (match scanString [] (escapeList s.toList ++ ('"' :: rest)) with
            | some (s', r') => some (Json.jstr s', r')
            | none => none) = some (Json.jstr s, rest)
          rw [renderStr_scan s rest]
  | .jarr [], p, ind, fuel, rest, _, hf, _ => by
      cases fuel with
      | zero => simp [renderJ] at hf
      | succ f => rfl
  | .jarr (e :: es), p, ind, fuel, rest, hw, hf, _ => by
      cases fuel with
      | zero => exact absurd hf (by omega)
      | succ f =>
          simp only [wfJson, wfJsonList, Bool.and_eq_true] at hw
          have harg : renderJ p ind (.jarr (e :: es)) ++ rest =
              '[' :: (nlInd p (ind + 4) ++ (renderElemsJ p (ind + 4) (e :: es) ++
                (nlInd p ind ++ (']' :: rest)))) := by
            simp [renderJ, openNE, List.append_assoc]
          have hfe : (renderElemsJ p (ind + 4) (e :: es)).length + 1 < f := by
            simp only [renderJ, List.length_cons, List.length_append, openNE,
              List.isEmpty_cons, if_neg] at hf
            omega
          obtain ⟨c0, t0, hren, hcws, hcbr, _, _⟩ :=
            renderJ_head p (ind + 4) e (by simp [wfJson, hw.1])
          have hbody : renderElemsJ p (ind + 4) (e :: es) ++
              (nlInd p ind ++ (']' :: rest)) =
              c0 :: (t0 ++ (sepNE p (ind + 4) es.isEmpty ++
                (renderElemsJ p (ind + 4) es ++ (nlInd p ind ++ (']' :: rest))))) := by
            simp [renderElemsJ, hren, List.append_assoc]
          have hkey := rt_elems (e :: es) p (ind + 4) f rest (nlInd p ind)
            (by simp) (by simp [wfJsonList, hw.1, hw.2]) hfe (wsOnly_nlInd p ind)
          have hskip : skipWsC (nlInd p (ind + 4) ++
              (renderElemsJ p (ind + 4) (e :: es) ++
                (nlInd p ind ++ (']' :: rest)))) =
              renderElemsJ p (ind + 4) (e :: es) ++
                (nlInd p ind ++ (']' :: rest)) := by
            rw [skipWsC_nlInd, hbody, skipWsC_not_ws c0 _ hcws]
          rw [harg]
          have step : parseVal (f + 1)
              ('[' :: (nlInd p (ind + 4) ++ (renderElemsJ p (ind + 4) (e :: es) ++
                (nlInd p ind ++ (']' :: rest))))) =
              (match skipWsC (nlInd p (ind + 4) ++
                  (renderElemsJ p (ind + 4) (e :: es) ++
                    (nlInd p ind ++ (']' :: rest)))) with
               | ']' :: r' => some (Json.jarr [], r')
               | r1 =>
                   match parseElems f r1 with
                   | some (es', r'') => some (Json.jarr es', r'')
                   | none => none) := rfl
          rw [step, hskip, hbody]
          split
          · rename_i heq
            injection heq with h1 _
            exact absurd h1 hcbr
          · rw [← hbody, hkey]
  | .jobj [], p, ind, fuel, rest, _, hf, _ => by
      cases fuel with
      | zero => simp [renderJ] at hf
      | succ f => rfl
  | .jobj ((k, v) :: ms), p, ind, fuel, rest, hw, hf, _ => by
      cases fuel with
      | zero => exact absurd hf (by omega)
      | succ f =>
          simp only [wfJson, wfJsonMembers, Bool.and_eq_true] at hw
          have harg : renderJ p ind (.jobj ((k, v) :: ms)) ++ rest =
              '{' :: (nlInd p (ind + 4) ++ (renderMembersJ p (ind + 4) ((k, v) :: ms) ++
                (nlInd p ind ++ ('}' :: rest)))) := by
            simp [renderJ, openNE, List.append_assoc]
          have hfm : (renderMembersJ p (ind + 4) ((k, v) :: ms)).length + 1 < f := by
            simp only [renderJ, List.length_cons, List.length_append, openNE,
              List.isEmpty_cons, if_neg] at hf
            omega
          have hkey := rt_members ((k, v) :: ms) p (ind + 4) f rest (nlInd p ind)
            (by simp) (by simp [wfJsonMembers, hw.1, hw.2]) hfm (wsOnly_nlInd p ind)
          have hbody : renderMembersJ p (ind + 4) ((k, v) :: ms) ++
              (nlInd p ind ++ ('}' :: rest)) =
              '"' :: (escapeList k.toList ++
                ('"' :: (':' :: (spIf p ++ renderJ p (ind + 4) v ++
                  sepNE p (ind + 4) ms.isEmpty ++ renderMembersJ p (ind + 4) ms ++
                  (nlInd p ind ++ ('}' :: rest)))))) := by
            simp [renderMembersJ, renderStr, List.append_assoc]
          have hskip : skipWsC (nlInd p (ind + 4) ++
              (renderMembersJ p (ind + 4) ((k, v) :: ms) ++
                (nlInd p ind ++ ('}' :: rest)))) =
              renderMembersJ p (ind + 4) ((k, v) :: ms) ++
                (nlInd p ind ++ ('}' :: rest)) := by
            rw [skipWsC_nlInd, hbody, skipWsC_not_ws '"' _ (by decide)]
          rw [harg]
          have step : parseVal (f + 1)
              ('{' :: (nlInd p (ind + 4) ++ (renderMembersJ p (ind + 4) ((k, v) :: ms) ++
                (nlInd p ind ++ ('}' :: rest))))) =
              (match skipWsC (nlInd p (ind + 4) ++
                  (renderMembersJ p (ind + 4) ((k, v) :: ms) ++
                    (nlInd p ind ++ ('}' :: rest)))) with
               | '}' :: r' => some (Json.jobj [], r')
               | r1 =>
                   match parseMembers f r1 with
                   | some (ms', r'') => some (Json.jobj ms', r'')
                   | none => none) := rfl
          rw [step, hskip, hbody]
          split
          · rename_i heq
            injection heq with h1 _
            exact absurd h1 (by decide)
          · rw [← hbody, hkey]

theorem rt_elems : ∀ (l : List Json) (p : Bool) (ind fuel : Nat)
    (rest ws : List Char), l ≠ [] → wfJsonList l = true →
    (renderElemsJ p ind l).length + 1 < fuel → wsOnly ws = true →
    parseElems fuel (renderElemsJ p ind l ++ (ws ++ (']' :: rest))) =
      some (l, rest)
  | [], _, _, _, _, _, hne, _, _, _ => absurd rfl hne
  | [e], p, ind, fuel, rest, ws, _, hw, hf, hws => by
      cases fuel with
      | zero => exact absurd hf (by omega)
      | succ f =>
          simp only [wfJsonList, Bool.and_eq_true] at hw
          have harg : renderElemsJ p ind [e] ++ (ws ++ (']' :: rest)) =
              renderJ p ind e ++ (ws ++ (']' :: rest)) := by
            simp [renderElemsJ, sepNE]
          have hfe : (renderJ p ind e).length < f := by
            simp only [renderElemsJ, sepNE, List.isEmpty_nil, if_pos,
              List.length_append, List.length_nil] at hf
            omega
          have hv := rt_val e p ind f (ws ++ (']' :: rest)) hw.1 hfe
            (numStop_ws_cons ws ']' rest hws (by decide))
          rw [harg, parseElems]
          simp [hv, skipWsC_ws_append ws hws, skipWsC, isWsC]
  | e :: e' :: es, p, ind, fuel, rest, ws, _, hw, hf, hws => by
      cases fuel with
      | zero => exact absurd hf (by omega)
      | succ f =>
          simp only [wfJsonList, Bool.and_eq_true] at hw
          have harg : renderElemsJ p ind (e :: e' :: es) ++ (ws ++ (']' :: rest)) =
              renderJ p ind e ++ (',' :: (nlInd p ind ++
                (renderElemsJ p ind (e' :: es) ++ (ws ++ (']' :: rest))))) := by
            simp [renderElemsJ, sepNE, List.append_assoc]
          obtain ⟨c0, t0, hren0, _, _, _, _⟩ := renderJ_head p ind e hw.1
          have hpos : 1 ≤ (renderJ p ind e).length := by rw [hren0]; simp
          have hlen : (renderJ p ind e).length < f ∧
              (renderElemsJ p ind (e' :: es)).length + 1 < f := by
            rw [renderElemsJ] at hf
            simp only [List.length_append, sepNE, List.isEmpty_cons,
              List.length_cons] at hf
            constructor <;> omega
          have hv := rt_val e p ind f
            (',' :: (nlInd p ind ++ (renderElemsJ p ind (e' :: es) ++
              (ws ++ (']' :: rest))))) hw.1 hlen.1 rfl
          have hrec := rt_elems (e' :: es) p ind f rest ws (by simp)
            (by simp only [wfJsonList, Bool.and_eq_true]; exact hw.2) hlen.2 hws
          rw [harg, parseElems]
          simp [hv, skipWsC, isWsC,
            parseElems_ws f (nlInd p ind) _ (wsOnly_nlInd p ind), hrec]

theorem rt_members : ∀ (l : List (String × Json)) (p : Bool) (ind fuel : Nat)
    (rest ws : List Char), l ≠ [] → wfJsonMembers l = true →
    (renderMembersJ p ind l).length + 1 < fuel → wsOnly ws = true →
    parseMembers fuel (renderMembersJ p ind l ++ (ws ++ ('}' :: rest))) =
      some (l, rest)
  | [], _, _, _, _, _, hne, _, _, _ => absurd rfl hne
  | [(k, v)], p, ind, fuel, rest, ws, _, hw, hf, hws => by
      cases fuel with
      | zero => exact absurd hf (by omega)
      | succ f =>
          simp only [wfJsonMembers, Bool.and_eq_true] at hw
          have harg : renderMembersJ p ind [(k, v)] ++ (ws ++ ('}' :: rest)) =
              '"' :: (escapeList k.toList ++ ('"' :: (':' :: (spIf p ++
                (renderJ p ind v ++ (ws ++ ('}' :: rest))))))) := by
            simp [renderMembersJ, renderStr, sepNE, List.append_assoc]
          have hfe : (renderJ p ind v).length < f := by
            simp only [renderMembersJ, sepNE, List.isEmpty_nil, if_pos,
              renderStr, List.length_append, List.length_cons,
              List.length_nil] at hf
            omega
          have hv := rt_val v p ind f (ws ++ ('}' :: rest)) hw.1 hfe
            (numStop_ws_cons ws '}' rest hws (by decide))
          rw [harg, parseMembers]
          simp [renderStr_scanL, stringMk_data, skipWsC, isWsC,
            parseVal_ws f (spIf p) _ (wsOnly_spIf p), hv,
            skipWsC_ws_append ws hws]
  | (k, v) :: m' :: ms, p, ind, fuel, rest, ws, _, hw, hf, hws => by
      cases fuel with
      | zero => exact absurd hf (by omega)
      | succ f =>
          simp only [wfJsonMembers, Bool.and_eq_true] at hw
          have harg : renderMembersJ p ind ((k, v) :: m' :: ms) ++
              (ws ++ ('}' :: rest)) =
              '"' :: (escapeList k.toList ++ ('"' :: (':' :: (spIf p ++
                (renderJ p ind v ++ (',' :: (nlInd p ind ++
                  (renderMembersJ p ind (m' :: ms) ++ (ws ++ ('}' :: rest)))))))))) := by
            simp [renderMembersJ, renderStr, sepNE, List.append_assoc]
          obtain ⟨c0, t0, hren0, _, _, _, _⟩ := renderJ_head p ind v hw.1
          have hpos : 1 ≤ (renderJ p ind v).length := by rw [hren0]; simp
          have hlen : (renderJ p ind v).length < f ∧
              (renderMembersJ p ind (m' :: ms)).length + 1 < f := by
            rw [renderMembersJ] at hf
            simp only [List.length_append, sepNE, List.isEmpty_cons,
              renderStr, List.length_cons] at hf
            constructor <;> omega
          have hv := rt_val v p ind f
            (',' :: (nlInd p ind ++ (renderMembersJ p ind (m' :: ms) ++
              (ws ++ ('}' :: rest))))) hw.1 hlen.1 rfl
          have hrec := rt_members (m' :: ms) p ind f rest ws (by simp)
            (by simp only [wfJsonMembers, Bool.and_eq_true]; exact hw.2) hlen.2 hws
          obtain ⟨mk, mv⟩ := m'
          have hhead : renderMembersJ p ind ((mk, mv) :: ms) ++
              (ws ++ ('}' :: rest)) =
              '"' :: (escapeList mk.toList ++ ('"' :: (':' :: (spIf p ++
                (renderJ p ind mv ++ (sepNE p ind ms.isEmpty ++
                  (renderMembersJ p ind ms ++ (ws ++ ('}' :: rest))))))))) := by
            simp [renderMembersJ, renderStr, List.append_assoc]
          have hskip2 : skipWsC (nlInd p ind ++
              (renderMembersJ p ind ((mk, mv) :: ms) ++ (ws ++ ('}' :: rest)))) =
              renderMembersJ p ind ((mk, mv) :: ms) ++ (ws ++ ('}' :: rest)) := by
            rw [skipWsC_nlInd, hhead, skipWsC_not_ws '"' _ (by decide)]
          rw [harg, parseMembers]
          simp [renderStr_scanL, stringMk_data, skipWsC, isWsC,
            parseVal_ws f (spIf p) _ (wsOnly_spIf p), hv, hskip2, hrec]

end

theorem parseText_renderText (p : Bool) (j : Json) (hw : wfJson j = true) :
    parseText (renderText p j) = some j := by
  have h := rt_val j p 0 ((renderJ p 0 j).length + 1) [] hw (by omega) rfl
  rw [List.append_nil] at h
  unfold parseText renderText
  rw [show (String.mk (renderJ p 0 j)).toList = renderJ p 0 j from rfl, h]
  rfl

/-! ## C8 groundwork: serializer output is well-formed -/

theorem wfJsonMembers_append (a b : List (String × Json)) :
    wfJsonMembers (a ++ b) = (wfJsonMembers a && wfJsonMembers b) := by
  induction a with
  | nil => simp [wfJsonMembers]
  | cons m rest ih =>
      obtain ⟨k, v⟩ := m
      simp [wfJsonMembers, ih, Bool.and_assoc]

theorem wfJsonMembers_nsMember (ns : Option String) :
    wfJsonMembers (nsMember ns) = true := by
  cases ns <;> rfl

theorem wfJsonMembers_docMember (doc : Option String) :
    wfJsonMembers (docMember doc) = true := by
  cases doc <;> rfl

theorem wfJsonList_map_jstr (l : List String) :
    wfJsonList (l.map Json.jstr) = true := by
  induction l with
  | nil => rfl
  | cons x xs ih => simp [wfJsonList, wfJson, ih]

mutual

theorem wfJson_jsonOfNode : ∀ (n : SchemaNode) (ctx : String) (st : SymTab),
    validIn ctx st n = true → wfJson (jsonOfNode n) = true
  | .prim _, _, _, _ => rfl
  | .ref _, _, _, _ => rfl
  | .record nm ns doc fs, ctx, st, h => by
      simp only [validIn, Bool.and_eq_true] at h
      simp [jsonOfNode, wfJson, wfJsonMembers_append, wfJsonMembers,
        wfJsonMembers_nsMember, wfJsonMembers_docMember]
      exact wfJson_jsonOfFields fs _ _ h.2
  | .enumN nm ns doc syms, ctx, st, h => by
      simp [jsonOfNode, wfJson, wfJsonMembers_append, wfJsonMembers,
        wfJsonMembers_nsMember, wfJsonMembers_docMember, wfJsonList_map_jstr]
  | .arrayN it, ctx, st, h => by
      simp only [validIn] at h
      simp [jsonOfNode, wfJson, wfJsonMembers]
      exact wfJson_jsonOfNode it ctx st h
  | .mapN v, ctx, st, h => by
      simp only [validIn] at h
      simp [jsonOfNode, wfJson, wfJsonMembers]
      exact wfJson_jsonOfNode v ctx st h
  | .unionN bs, ctx, st, h => by
      simp only [validIn, Bool.and_eq_true] at h
      simp only [jsonOfNode, wfJson]
      exact wfJson_jsonOfBranches bs ctx st h.2
  | .fixedN nm ns doc size, ctx, st, h => by
      simp [jsonOfNode, wfJson, wfJsonMembers_append, wfJsonMembers,
        wfJsonMembers_nsMember, wfJsonMembers_docMember, wfNum_natLit]

theorem wfJson_jsonOfFields : ∀ (fs : List SchemaField) (ctx : String)
    (st : SymTab), validFields ctx st fs = true →
    wfJsonList (jsonOfFields fs) = true
  | [], _, _, _ => rfl
  | .mk fn doc ty dflt :: rest, ctx, st, h => by
      simp only [validFields, Bool.and_eq_true] at h
      obtain ⟨⟨h1, h2⟩, h3⟩ := h
      simp [jsonOfFields, wfJsonList, wfJson, wfJsonMembers_append,
        wfJsonMembers, wfJsonMembers_docMember]
      refine ⟨⟨wfJson_jsonOfNode ty ctx st h1, ?_⟩,
        wfJson_jsonOfFields rest ctx _ h3⟩
      cases dflt with
      | none => rfl
      | some d =>
          simp only [defaultCheck, Bool.and_eq_true] at h2
          simp [dfltMember, wfJsonMembers, h2.2]

theorem wfJson_jsonOfBranches : ∀ (bs : List SchemaNode) (ctx : String)
    (st : SymTab), validBranches ctx st bs = true →
    wfJsonList (jsonOfBranches bs) = true
  | [], _, _, _ => rfl
  | b :: rest, ctx, st, h => by
      simp only [validBranches, Bool.and_eq_true] at h
      simp only [jsonOfBranches, wfJsonList, Bool.and_eq_true]
      exact ⟨wfJson_jsonOfNode b ctx st h.1, wfJson_jsonOfBranches rest ctx _ h.2⟩

end

/-! ## C8 groundwork: clean validations record no error -/

theorem unionDupErrors_ok : ∀ (bs : List SchemaNode) (ctx : String)
    (seen : List UnionKey) (es : ErrorState),
    unionKeysOk ctx seen bs = true → unionDupErrors ctx seen es bs = es
  | [], _, _, _, _ => rfl
  | b :: rest, ctx, seen, es, h => by
      rw [unionKeysOk] at h
      rw [unionDupErrors]
      revert h
      cases unionKeyOf ctx b with
      | none => intro h; cases h
      | some k =>
          intro h
          rw [Bool.and_eq_true, Bool.not_eq_true'] at h
          have hnm : ¬ k ∈ seen := by simpa using h.1
          simp [hnm, unionDupErrors_ok rest ctx (k :: seen) es h.2]

theorem enumSymbols_ok : ∀ (syms : List String) (seen : List String)
    (es : ErrorState), symbolsOk seen syms = true →
    enumSymbols seen es (syms.map .jstr) = (syms, es)
  | [], _, _, _ => rfl
  | s :: rest, seen, es, h => by
      rw [symbolsOk, Bool.and_eq_true, Bool.not_eq_true'] at h
      have hnm : ¬ s ∈ seen := by simpa using h.1
      simp [List.map_cons, enumSymbols, hnm, enumSymbols_ok rest (s :: seen) es h.2]

theorem fieldDupErrors_ok : ∀ (fs : List SchemaField) (seen : List String)
    (es : ErrorState), fieldNamesOk seen fs = true →
    fieldDupErrors seen es fs = es
  | [], _, _, _ => rfl
  | f :: rest, seen, es, h => by
      rw [fieldNamesOk, Bool.and_eq_true, Bool.not_eq_true'] at h
      have hnm : ¬ f.fname ∈ seen := by simpa using h.1
      simp [fieldDupErrors, hnm, fieldDupErrors_ok rest (f.fname :: seen) es h.2]

theorem jsizeMembers_append (a b : List (String × Json)) :
    jsizeMembers (a ++ b) = jsizeMembers a + jsizeMembers b := by
  induction a with
  | nil => simp [jsizeMembers]
  | cons m rest ih =>
      obtain ⟨k, v⟩ := m
      simp only [List.cons_append, jsizeMembers]
      have h2 : jsizeMembers (rest.append b) = jsizeMembers rest + jsizeMembers b := ih
      rw [h2]
      omega

theorem primOfName_primName (k : PrimKind) : primOfName (primName k) = some k := by
  cases k <;> rfl

/-! ## C8 core: rebuilding a valid graph from its canonical JSON is the
identity — same node, the builder's declarations pushed onto the symbol
table, and the error accumulator untouched. -/

mutual

theorem buildJ_jsonOf : ∀ (n : SchemaNode) (ctx : String) (st : SymTab)
    (es : ErrorState) (fuel : Nat), validIn ctx st n = true →
    jsize (jsonOfNode n) < fuel →
    buildJ fuel ctx (jsonOfNode n) st es = (n, declsOf ctx n ++ st, es)
  | .prim k, ctx, st, es, fuel, h, hsz => by
      cases fuel with
      | zero => simp [jsonOfNode, jsize] at hsz
      | succ g =>
          simp [jsonOfNode, buildJ, resolveName, primOfName_primName, declsOf]
  | .ref q, ctx, st, es, fuel, h, hsz => by
      cases fuel with
      | zero => simp [jsonOfNode, jsize] at hsz
      | succ g =>
          simp only [validIn, Bool.and_eq_true] at h
          have hnone : primOfName q = none := by
            revert h; cases primOfName q <;> simp
          simp [jsonOfNode, buildJ, resolveName, hnone, h.2, declsOf]
  | .record nm ns doc fs, ctx, st, es, fuel, h, hsz => by
      cases fuel with
      | zero => simp [jsonOfNode, jsize] at hsz
      | succ g =>
          simp only [validIn, Bool.and_eq_true] at h
          obtain ⟨⟨h1, h2⟩, h3⟩ := h
          have hfresh : lookupSym st
              (qualifyName (effectiveNs ns ctx) nm) = none := by
            revert h1
            cases lookupSym st (qualifyName (effectiveNs ns ctx) nm) <;> simp
          have htype : lookupJ "type"
              (("type", Json.jstr "record") :: (nsMember ns ++
               ("name", Json.jstr nm) :: (docMember doc ++
               [("fields", Json.jarr (jsonOfFields fs))]))) =
              some (Json.jstr "record") := by
            cases ns <;> cases doc <;> rfl
          have hname : lookupJ "name"
              (("type", Json.jstr "record") :: (nsMember ns ++
               ("name", Json.jstr nm) :: (docMember doc ++
               [("fields", Json.jarr (jsonOfFields fs))]))) =
              some (Json.jstr nm) := by
            cases ns <;> cases doc <;> rfl
          have hnsA : strAttr "namespace"
              (("type", Json.jstr "record") :: (nsMember ns ++
               ("name", Json.jstr nm) :: (docMember doc ++
               [("fields", Json.jarr (jsonOfFields fs))]))) = ns := by
            cases ns <;> cases doc <;> rfl
          have hdocA : strAttr "doc"
              (("type", Json.jstr "record") :: (nsMember ns ++
               ("name", Json.jstr nm) :: (docMember doc ++
               [("fields", Json.jarr (jsonOfFields fs))]))) = doc := by
            cases ns <;> cases doc <;> rfl
          have hflds : lookupJ "fields"
              (("type", Json.jstr "record") :: (nsMember ns ++
               ("name", Json.jstr nm) :: (docMember doc ++
               [("fields", Json.jarr (jsonOfFields fs))]))) =
              some (Json.jarr (jsonOfFields fs)) := by
            cases ns <;> cases doc <;> rfl
          have hszf : jsizeList (jsonOfFields fs) < g := by
            simp only [jsonOfNode, jsize, List.cons_append, List.nil_append,
              List.append_eq, jsizeMembers_append, jsizeMembers] at hsz
            omega
          have hrec := buildFields_jsonOf fs (effectiveNs ns ctx)
            ((qualifyName (effectiveNs ns ctx) nm, .recordK) :: st) es g h3 hszf
          have hpm : primOfName "record" = none := rfl
          simp [jsonOfNode, buildJ, htype, hname, hnsA, hdocA, hflds, hpm,
            declareName, hfresh, hrec, fieldDupErrors_ok fs [] es h2,
            declsOf, List.append_assoc]
  | .enumN nm ns doc syms, ctx, st, es, fuel, h, hsz => by
      cases fuel with
      | zero => simp [jsonOfNode, jsize] at hsz
      | succ g =>
          simp only [validIn, Bool.and_eq_true] at h
          obtain ⟨h1, h2⟩ := h
          have hfresh : lookupSym st
              (qualifyName (effectiveNs ns ctx) nm) = none := by
            revert h1
            cases lookupSym st (qualifyName (effectiveNs ns ctx) nm) <;> simp
          have htype : lookupJ "type"
              (("type", Json.jstr "enum") :: (nsMember ns ++
               ("name", Json.jstr nm) :: (docMember doc ++
               [("symbols", Json.jarr (syms.map Json.jstr))]))) =
              some (Json.jstr "enum") := by
            cases ns <;> cases doc <;> rfl
          have hname : lookupJ "name"
              (("type", Json.jstr "enum") :: (nsMember ns ++
               ("name", Json.jstr nm) :: (docMember doc ++
               [("symbols", Json.jarr (syms.map Json.jstr))]))) =
              some (Json.jstr nm) := by
            cases ns <;> cases doc <;> rfl
          have hnsA : strAttr "namespace"
              (("type", Json.jstr "enum") :: (nsMember ns ++
               ("name", Json.jstr nm) :: (docMember doc ++
               [("symbols", Json.jarr (syms.map Json.jstr))]))) = ns := by
            cases ns <;> cases doc <;> rfl
          have hdocA : strAttr "doc"
              (("type", Json.jstr "enum") :: (nsMember ns ++
               ("name", Json.jstr nm) :: (docMember doc ++
               [("symbols", Json.jarr (syms.map Json.jstr))]))) = doc := by
            cases ns <;> cases doc <;> rfl
          have hsyms : lookupJ "symbols"
              (("type", Json.jstr "enum") :: (nsMember ns ++
               ("name", Json.jstr nm) :: (docMember doc ++
               [("symbols", Json.jarr (syms.map Json.jstr))]))) =
              some (Json.jarr (syms.map Json.jstr)) := by
            cases ns <;> cases doc <;> rfl
          have hpm : primOfName "enum" = none := rfl
          simp [jsonOfNode, buildJ, htype, hname, hnsA, hdocA, hsyms, hpm,
            declareName, hfresh, enumSymbols_ok syms [] es h2, declsOf]
  | .arrayN it, ctx, st, es, fuel, h, hsz => by
      cases fuel with
      | zero => simp [jsonOfNode, jsize] at hsz
      | succ g =>
          simp only [validIn] at h
          have hszi : jsize (jsonOfNode it) < g := by
            simp only [jsonOfNode, jsize, jsizeMembers] at hsz
            omega
          have hrec := buildJ_jsonOf it ctx st es g h hszi
          simp [jsonOfNode, buildJ, lookupJ, primOfName, hrec, declsOf]
  | .mapN v, ctx, st, es, fuel, h, hsz => by
      cases fuel with
      | zero => simp [jsonOfNode, jsize] at hsz
      | succ g =>
          simp only [validIn] at h
          have hszi : jsize (jsonOfNode v) < g := by
            simp only [jsonOfNode, jsize, jsizeMembers] at hsz
            omega
          have hrec := buildJ_jsonOf v ctx st es g h hszi
          simp [jsonOfNode, buildJ, lookupJ, primOfName, hrec, declsOf]
  | .unionN bs, ctx, st, es, fuel, h, hsz => by
      cases fuel with
      | zero => simp [jsonOfNode, jsize] at hsz
      | succ g =>
          simp only [validIn, Bool.and_eq_true] at h
          have hszb : jsizeList (jsonOfBranches bs) < g := by
            simp only [jsonOfNode, jsize] at hsz
            omega
          have hrec := buildBranches_jsonOf bs ctx st es g h.2 hszb
          simp [jsonOfNode, buildJ, hrec, unionDupErrors_ok bs ctx [] es h.1,
            declsOf]
  | .fixedN nm ns doc size, ctx, st, es, fuel, h, hsz => by
      cases fuel with
      | zero => simp [jsonOfNode, jsize] at hsz
      | succ g =>
          simp only [validIn, Bool.and_eq_true] at h
          obtain ⟨h1, h2⟩ := h
          have hfresh : lookupSym st
              (qualifyName (effectiveNs ns ctx) nm) = none := by
            revert h1
            cases lookupSym st (qualifyName (effectiveNs ns ctx) nm) <;> simp
          have htype : lookupJ "type"
              (("type", Json.jstr "fixed") :: (nsMember ns ++
               ("name", Json.jstr nm) :: (docMember doc ++
               [("size", Json.jnum (natLit size))]))) =
              some (Json.jstr "fixed") := by
            cases ns <;> cases doc <;> rfl
          have hname : lookupJ "name"
              (("type", Json.jstr "fixed") :: (nsMember ns ++
               ("name", Json.jstr nm) :: (docMember doc ++
               [("size", Json.jnum (natLit size))]))) =
              some (Json.jstr nm) := by
            cases ns <;> cases doc <;> rfl
          have hnsA : strAttr "namespace"
              (("type", Json.jstr "fixed") :: (nsMember ns ++
               ("name", Json.jstr nm) :: (docMember doc ++
               [("size", Json.jnum (natLit size))]))) = ns := by
            cases ns <;> cases doc <;> rfl
          have hdocA : strAttr "doc"
              (("type", Json.jstr "fixed") :: (nsMember ns ++
               ("name", Json.jstr nm) :: (docMember doc ++
               [("size", Json.jnum (natLit size))]))) = doc := by
            cases ns <;> cases doc <;> rfl
          have hsize : lookupJ "size"
              (("type", Json.jstr "fixed") :: (nsMember ns ++
               ("name", Json.jstr nm) :: (docMember doc ++
               [("size", Json.jnum (natLit size))]))) =
              some (Json.jnum (natLit size)) := by
            cases ns <;> cases doc <;> rfl
          have hpos : (0 : Int) < (size : Int) := by
            rw [decide_eq_true_eq] at h2
            omega
          have hpm : primOfName "fixed" = none := rfl
          simp [jsonOfNode, buildJ, htype, hname, hnsA, hdocA, hsize, hpm,
            declareName, hfresh, parseIntRaw_natLit, hpos, declsOf]

theorem buildFields_jsonOf : ∀ (fs : List SchemaField) (ctx : String)
    (st : SymTab) (es : ErrorState) (fuel : Nat),
    validFields ctx st fs = true → jsizeList (jsonOfFields fs) < fuel →
    buildFieldList fuel ctx (jsonOfFields fs) st es =
      (fs, declsFields ctx fs ++ st, es)
  | [], ctx, st, es, fuel, _, hsz => by
      cases fuel with
      | zero => simp [jsonOfFields, jsizeList] at hsz
      | succ g => simp [jsonOfFields, buildFieldList, declsFields]
  | .mk fn doc ty dflt :: rest, ctx, st, es, fuel, h, hsz => by
      cases fuel with
      | zero => simp [jsonOfFields, jsizeList] at hsz
      | succ g =>
          simp only [validFields, Bool.and_eq_true] at h
          obtain ⟨⟨h1, h2⟩, h3⟩ := h
          have hfname : lookupJ "name"
              (("name", Json.jstr fn) :: ("type", jsonOfNode ty) ::
               (docMember doc ++ dfltMember dflt)) = some (Json.jstr fn) := by
            cases doc <;> cases dflt <;> rfl
          have htypef : lookupJ "type"
              (("name", Json.jstr fn) :: ("type", jsonOfNode ty) ::
               (docMember doc ++ dfltMember dflt)) = some (jsonOfNode ty) := by
            cases doc <;> cases dflt <;> rfl
          have hdfltf : lookupJ "default"
              (("name", Json.jstr fn) :: ("type", jsonOfNode ty) ::
               (docMember doc ++ dfltMember dflt)) = dflt := by
            cases doc <;> cases dflt <;> rfl
          have hdocf : strAttr "doc"
              (("name", Json.jstr fn) :: ("type", jsonOfNode ty) ::
               (docMember doc ++ dfltMember dflt)) = doc := by
            cases doc <;> cases dflt <;> rfl
          have hszs : jsize (jsonOfNode ty) < g ∧
              jsizeList (jsonOfFields rest) < g := by
            simp only [jsonOfFields, jsizeList, jsize, List.cons_append,
              List.nil_append, List.append_eq, jsizeMembers_append,
              jsizeMembers] at hsz
            constructor <;> omega
          have hrecT := buildJ_jsonOf ty ctx st es g h1 hszs.1
          have hrecR := buildFields_jsonOf rest ctx (declsOf ctx ty ++ st) es g
            h3 hszs.2
          have hdOk : ∀ d, dflt = some d → defaultOk d ty = true := by
            intro d hd
            rw [hd, defaultCheck, Bool.and_eq_true] at h2
            exact h2.1
          cases dflt with
          | none =>
              simp [jsonOfFields, buildFieldList, hfname, htypef, hdfltf,
                hdocf, hrecT, hrecR, declsFields, List.append_assoc]
          | some d =>
              simp [jsonOfFields, buildFieldList, hfname, htypef, hdfltf,
                hdocf, hrecT, hrecR, hdOk d rfl, declsFields,
                List.append_assoc]

theorem buildBranches_jsonOf : ∀ (bs : List SchemaNode) (ctx : String)
    (st : SymTab) (es : ErrorState) (fuel : Nat),
    validBranches ctx st bs = true → jsizeList (jsonOfBranches bs) < fuel →
    buildUnionBranches fuel ctx (jsonOfBranches bs) st es =
      (bs, declsBranches ctx bs ++ st, es)
  | [], ctx, st, es, fuel, _, hsz => by
      cases fuel with
      | zero => simp [jsonOfBranches, jsizeList] at hsz
      | succ g => simp [jsonOfBranches, buildUnionBranches, declsBranches]
  | b :: rest, ctx, st, es, fuel, h, hsz => by
      cases fuel with
      | zero => simp [jsonOfBranches, jsizeList] at hsz
      | succ g =>
          simp only [validBranches, Bool.and_eq_true] at h
          have hszs : jsize (jsonOfNode b) < g ∧
              jsizeList (jsonOfBranches rest) < g := by
            simp only [jsonOfBranches, jsizeList] at hsz
            have hb1 : 1 ≤ jsize (jsonOfNode b) := by
              cases hjb : jsonOfNode b <;> simp [jsize]
            constructor <;> omega
          have hrecB := buildJ_jsonOf b ctx st es g h.1 hszs.1
          have hrecR := buildBranches_jsonOf rest ctx (declsOf ctx b ++ st) es g
            h.2 hszs.2
          simp [jsonOfBranches, buildUnionBranches, hrecB, hrecR,
            declsBranches, List.append_assoc]

end

/-- C8: the canonical serializer is idempotent.  Compiling the serializer's
output — in pretty or compact mode — succeeds with no recorded error and
returns the very same graph, so re-serializing it in either mode reproduces
the text: `toJson (compile (toJson x p)) p' = toJson x p'`. -/
theorem serializer_idempotent (n : SchemaNode) (p : Bool)
    (h : validSchema n = true) :
    (compileNew (toJson n p)).1 = some n ∧
    (compileNew (toJson n p)).2.has_errored = false ∧
    ∀ p' : Bool,
      (compileNew (toJson n p)).1.map (toJson · p') = some (toJson n p') := by
  have hwf := wfJson_jsonOfNode n "" [] h
  have hparse := parseText_renderText p (jsonOfNode n) hwf
  have hbuild := buildJ_jsonOf n "" [] initErrorState
    (jsize (jsonOfNode n) + 1) h (by omega)
  have hcomp : compileNew (toJson n p) = (some n, initErrorState) := by
    have hie : initErrorState.has_errored = false := rfl
    simp [compileNew, compileJsonSchemaFromString, toJson, hparse, compileJson,
      hbuild, hie]
  exact ⟨by rw [hcomp], by rw [hcomp]; rfl, fun p' => by rw [hcomp]; rfl⟩

/-- Closed instance of `serializer_idempotent` at the array-of-long schema,
compact mode: compiling its serialization returns the same node. -/
theorem serializer_idempotent_witness :
    validSchema (SchemaNode.arrayN (.prim .longK)) = true ∧
    (compileNew (toJson (SchemaNode.arrayN (.prim .longK)) false)).1 =
      some (SchemaNode.arrayN (.prim .longK)) :=
  ⟨rfl, (serializer_idempotent (SchemaNode.arrayN (.prim .longK)) false rfl).1⟩

/-- C9: one accumulate-all compile pass over a document with an undefined
name in one union branch and a duplicate enum symbol in another records
exactly those two messages and sets the flag. -/
theorem accumulate_all_two_errors :
    (compileNew twoErrorsDoc).2.has_errored = true ∧
    (compileNew twoErrorsDoc).2.error_state_messages.length = 2 ∧
    (compileNew twoErrorsDoc).2.error_state_messages =
      ["Undefined type: Undef", "Duplicate symbol: AA"] :=
  ⟨rfl, rfl, rfl⟩

end Avro
